import Mathlib

/-!
# Verification of the visual-logic-life-search encoder

A shallow embedding, in Lean 4, of the SAT-encoder core of the
`visual-logic-life-search` repository (C++), together with proofs about it.

Conventions used throughout:

* machine `int` values are modelled as `Int` (or `Nat` where the source only
  ever holds non-negative values, such as the bitmask arithmetic of
  `sat_logic.hpp`);
* `std::vector` becomes `List`, `std::set<Point>` becomes `Finset Point`,
  `std::map`/`std::unordered_map` become association lists (`List (κ × ν)`);
* functions that can `throw` return `Except String α`, carrying the same
  message strings as the C++ exceptions;
* the union-find's path compression is not modelled: compression rewrites the
  parent forest but never changes the result of `find`, and the embedded
  `find` simply chases parent links.
-/

/-! ### Bitwise auxiliary lemmas

Facts about binary carries and the `(x + 1) | care` / `(x - 1) & care`
enumeration tricks used by `sat_logic.hpp`: stepping from a superset `x` of
`care` to `(x + 1) | care` reaches exactly the next superset, and stepping
from a subset `f` to `(f - 1) & care` reaches exactly the next subset. -/

theorem inc_div_eq {x i : Nat} (h : (x + 1).testBit i = true) :
    (x + 1) / 2 ^ (i + 1) = x / 2 ^ (i + 1) := by
  have hp : 0 < 2 ^ (i + 1) := Nat.pos_pow_of_pos _ (by norm_num)
  have hd := Nat.div_add_mod x (2 ^ (i + 1))
  have hlt : x % 2 ^ (i + 1) < 2 ^ (i + 1) := Nat.mod_lt _ hp
  by_cases hc : x % 2 ^ (i + 1) = 2 ^ (i + 1) - 1
  · exfalso
    have hdist : 2 ^ (i + 1) * (x / 2 ^ (i + 1) + 1)
        = 2 ^ (i + 1) * (x / 2 ^ (i + 1)) + 2 ^ (i + 1) := by ring
    have hmul : x + 1 = 2 ^ (i + 1) * (x / 2 ^ (i + 1) + 1) := by omega
    have hbit : (x + 1).testBit i = false := by
      rw [Nat.testBit_to_div_mod]
      have h2 : 2 ^ (i + 1) = 2 ^ i * 2 := by ring
      have hq : (x + 1) / 2 ^ i = 2 * (x / 2 ^ (i + 1) + 1) := by
        rw [hmul, h2, Nat.mul_assoc]
        rw [Nat.mul_div_cancel_left _ (Nat.pos_pow_of_pos _ (by norm_num))]
      simp [hq, Nat.mul_mod_right]
    rw [h] at hbit
    simp at hbit
  · have hsplit : x + 1 = 2 ^ (i + 1) * (x / 2 ^ (i + 1)) + (x % 2 ^ (i + 1) + 1) := by omega
    rw [hsplit, Nat.mul_add_div hp]
    have hz : (x % 2 ^ (i + 1) + 1) / 2 ^ (i + 1) = 0 := Nat.div_eq_of_lt (by omega)
    omega

theorem testBit_eq_of_div_eq {a b i : Nat} (h : a / 2 ^ (i + 1) = b / 2 ^ (i + 1))
    {j : Nat} (hj : i < j) : a.testBit j = b.testBit j := by
  have h1 : a.testBit j = (a / 2 ^ (i + 1)).testBit (j - (i + 1)) := by
    rw [← Nat.shiftRight_eq_div_pow, Nat.testBit_shiftRight]
    congr 1; omega
  have h2 : b.testBit j = (b / 2 ^ (i + 1)).testBit (j - (i + 1)) := by
    rw [← Nat.shiftRight_eq_div_pow, Nat.testBit_shiftRight]
    congr 1; omega
  rw [h1, h2, h]

theorem dec_div_eq {f i : Nat} (hf : 0 < f) (h : (f - 1).testBit i = false) :
    (f - 1) / 2 ^ (i + 1) = f / 2 ^ (i + 1) := by
  have hp : 0 < 2 ^ (i + 1) := Nat.pos_pow_of_pos _ (by norm_num)
  have hd := Nat.div_add_mod f (2 ^ (i + 1))
  have hlt : f % 2 ^ (i + 1) < 2 ^ (i + 1) := Nat.mod_lt _ hp
  by_cases hc : f % 2 ^ (i + 1) = 0
  · exfalso
    obtain ⟨q, hq⟩ := Nat.dvd_of_mod_eq_zero hc
    have hq1 : 0 < q := by
      rcases Nat.eq_zero_or_pos q with h0 | h0
      · rw [h0, Nat.mul_zero] at hq; omega
      · exact h0
    obtain ⟨k, hk⟩ := Nat.exists_eq_add_of_le hq1
    have hfk : f = 2 ^ (i + 1) * k + 2 ^ (i + 1) := by rw [hq, hk]; ring
    have hmod : (f - 1) % 2 ^ (i + 1) = 2 ^ (i + 1) - 1 := by
      have hstep : f - 1 = 2 ^ (i + 1) * k + (2 ^ (i + 1) - 1) := by omega
      rw [hstep, Nat.mul_add_mod]
      exact Nat.mod_eq_of_lt (by omega)
    have hbit : (f - 1).testBit i = true := by
      have h1 : (f - 1).testBit i = ((f - 1) % 2 ^ (i + 1)).testBit i := by
        rw [Nat.testBit_mod_two_pow]; simp
      rw [h1, hmod, Nat.testBit_two_pow_sub_one]; simp
    rw [h] at hbit; simp at hbit
  · have hsplit : f - 1 = 2 ^ (i + 1) * (f / 2 ^ (i + 1)) + (f % 2 ^ (i + 1) - 1) := by omega
    rw [hsplit, Nat.mul_add_div hp]
    have hz : (f % 2 ^ (i + 1) - 1) / 2 ^ (i + 1) = 0 := Nat.div_eq_of_lt (by omega)
    omega

theorem testBit_of_subset {a c : Nat} (h : a &&& c = a) {i : Nat}
    (hi : a.testBit i = true) : c.testBit i = true := by
  have := congrArg (fun n => n.testBit i) h
  simp only [Nat.testBit_and, hi, Bool.true_and] at this
  exact this

theorem testBit_of_superset {x c : Nat} (h : x &&& c = c) {i : Nat}
    (hi : c.testBit i = true) : x.testBit i = true := by
  have := congrArg (fun n => n.testBit i) h
  simp only [Nat.testBit_and, hi, Bool.and_true] at this
  exact this

theorem next_superset_le {c x y : Nat} (hx : x &&& c = c) (hy : y &&& c = c)
    (hxy : x < y) : (x + 1) ||| c ≤ y := by
  by_contra hlt
  push_neg at hlt
  have hne : ((x + 1) ||| c) ^^^ y ≠ 0 := by
    intro h0
    have := Nat.xor_eq_zero.mp h0
    omega
  obtain ⟨i, hdi, hdj⟩ := Nat.exists_most_significant_bit hne
  have hij : ∀ j, i < j → ((x + 1) ||| c).testBit j = y.testBit j := by
    intro j hj
    have := hdj j hj
    rw [Nat.testBit_xor] at this
    cases h1 : ((x + 1) ||| c).testBit j <;> cases h2 : y.testBit j <;>
      rw [h1, h2] at this <;> simp_all
  have hne_i : ((x + 1) ||| c).testBit i ≠ y.testBit i := by
    intro he
    rw [Nat.testBit_xor, he] at hdi
    simp at hdi
  -- orientation: since y < (x+1) ||| c, the top differing bit is set in (x+1) ||| c
  have hzi : ((x + 1) ||| c).testBit i = true := by
    cases hzt : ((x + 1) ||| c).testBit i with
    | true => rfl
    | false =>
      exfalso
      have hyi : y.testBit i = true := by
        cases hyt : y.testBit i with
        | true => rfl
        | false => rw [hyt, hzt] at hne_i; exact absurd rfl hne_i
      have : (x + 1) ||| c < y := Nat.lt_of_testBit i hzt hyi (fun j hj => hij j hj)
      omega
  have hyi : y.testBit i = false := by
    cases hyt : y.testBit i with
    | false => rfl
    | true => rw [hyt, hzi] at hne_i; exact absurd rfl hne_i
  rw [Nat.testBit_or] at hzi
  have hci : c.testBit i = false := by
    cases hct : c.testBit i with
    | false => rfl
    | true =>
      have := testBit_of_superset hy hct
      rw [this] at hyi; exact absurd hyi (by simp)
  have hx1i : (x + 1).testBit i = true := by
    rw [hci] at hzi; simpa using hzi
  have hdiv := inc_div_eq hx1i
  have hyx : ∀ j, i < j → y.testBit j = (x + 1).testBit j := by
    intro j hj
    have h1 := hij j hj
    rw [Nat.testBit_or] at h1
    cases hct : c.testBit j with
    | false => rw [hct] at h1; simpa using h1.symm
    | true =>
      have hxj : x.testBit j = true := testBit_of_superset hx hct
      have hx1j : (x + 1).testBit j = true := by
        rw [testBit_eq_of_div_eq hdiv hj]; exact hxj
      rw [hct, hx1j] at h1; rw [hx1j, ← h1]; simp
  have : y < x + 1 := Nat.lt_of_testBit i hyi hx1i hyx
  omega

theorem next_subset_ge {c f g : Nat} (hf : f &&& c = f) (hg : g &&& c = g)
    (hgf : g < f) : g ≤ (f - 1) &&& c := by
  by_contra hlt
  push_neg at hlt
  have hne : g ^^^ ((f - 1) &&& c) ≠ 0 := by
    intro h0
    have := Nat.xor_eq_zero.mp h0
    omega
  obtain ⟨i, hdi, hdj⟩ := Nat.exists_most_significant_bit hne
  have hij : ∀ j, i < j → g.testBit j = ((f - 1) &&& c).testBit j := by
    intro j hj
    have := hdj j hj
    rw [Nat.testBit_xor] at this
    cases h1 : g.testBit j <;> cases h2 : ((f - 1) &&& c).testBit j <;>
      rw [h1, h2] at this <;> simp_all
  have hne_i : g.testBit i ≠ ((f - 1) &&& c).testBit i := by
    intro he
    rw [Nat.testBit_xor, he] at hdi
    simp at hdi
  have hgi : g.testBit i = true := by
    cases hgt : g.testBit i with
    | true => rfl
    | false =>
      exfalso
      have hhi : ((f - 1) &&& c).testBit i = true := by
        cases hht : ((f - 1) &&& c).testBit i with
        | true => rfl
        | false => rw [hgt, hht] at hne_i; exact absurd rfl hne_i
      have : g < (f - 1) &&& c := Nat.lt_of_testBit i hgt hhi (fun j hj => hij j hj)
      omega
  have hhi : ((f - 1) &&& c).testBit i = false := by
    cases hht : ((f - 1) &&& c).testBit i with
    | false => rfl
    | true => rw [hgi, hht] at hne_i; exact absurd rfl hne_i
  have hci : c.testBit i = true := testBit_of_subset hg hgi
  have hf1i : (f - 1).testBit i = false := by
    rw [Nat.testBit_and, hci, Bool.and_true] at hhi
    exact hhi
  have hfpos : 0 < f := by omega
  have hdiv := dec_div_eq hfpos hf1i
  have hgf_bits : ∀ j, i < j → g.testBit j = f.testBit j := by
    intro j hj
    have h1 := hij j hj
    rw [Nat.testBit_and] at h1
    rw [testBit_eq_of_div_eq hdiv hj] at h1
    cases hft : f.testBit j with
    | false => rw [hft] at h1; simpa using h1
    | true =>
      have hcj : c.testBit j = true := testBit_of_subset hf hft
      rw [hft, hcj] at h1; simpa using h1
  cases hfi : f.testBit i with
  | false =>
    have : f < g := Nat.lt_of_testBit i hfi hgi (fun j hj => (hgf_bits j hj).symm)
    omega
  | true =>
    -- f has bit i set while f - 1 does not: bit i is the lowest set bit of f,
    -- so all bits of f below i are zero and f ≤ g follows bitwise.
    have hmodz : f % 2 ^ i = 0 := by
      by_contra hmz
      have hppos : 0 < 2 ^ i := Nat.pos_pow_of_pos _ (by norm_num)
      have hfd := Nat.div_add_mod f (2 ^ i)
      have hfi' : f / 2 ^ i % 2 = 1 := by
        have := hfi
        rw [Nat.testBit_to_div_mod] at this
        simpa using this
      have hf1d : (f - 1) / 2 ^ i = f / 2 ^ i := by
        have hmlt : f % 2 ^ i < 2 ^ i := Nat.mod_lt _ hppos
        have hsplit : f - 1 = 2 ^ i * (f / 2 ^ i) + (f % 2 ^ i - 1) := by omega
        rw [hsplit, Nat.mul_add_div hppos]
        have : (f % 2 ^ i - 1) / 2 ^ i = 0 := Nat.div_eq_of_lt (by omega)
        omega
      have : (f - 1).testBit i = true := by
        rw [Nat.testBit_to_div_mod, hf1d, hfi']
        simp
      rw [hf1i] at this; simp at this
    have hle : f ≤ g := by
      apply Nat.le_of_testBit
      intro j hjt
      rcases Nat.lt_trichotomy j i with hj | hj | hj
      · exfalso
        have : f.testBit j = (f % 2 ^ i).testBit j := by
          rw [Nat.testBit_mod_two_pow]
          simp [hj]
        rw [hmodz] at this
        simp [Nat.zero_testBit] at this
        rw [hjt] at this; exact absurd this (by simp)
      · rw [hj] at hjt ⊢; rw [hgi]
      · rw [hgf_bits j hj]; exact hjt
    omega

/-! ## sat_logic.hpp

`table` in the source is a `std::vector<int>` of length 1024 with
`table[x + 512 * r] = 1` exactly when `r` is the B3/S23 successor state of the
nine-bit neighbourhood `x` (bit 4 is the centre).  Each index `i < 1024`
decomposes uniquely as `i = (i % 512) + 512 * (i / 512)`, so the vector is
embedded as the function `lifeTable`. -/

/-- Number of set bits among the ten low bits (the source uses
`__builtin_popcount` on values `< 1024`). -/
def popcount10 (x : Nat) : Nat :=
  (x >>> 0) % 2 + (x >>> 1) % 2 + (x >>> 2) % 2 + (x >>> 3) % 2 + (x >>> 4) % 2 +
  (x >>> 5) % 2 + (x >>> 6) % 2 + (x >>> 7) % 2 + (x >>> 8) % 2 + (x >>> 9) % 2

/-- `r = abs(popcount(x & 495) * 2 + (x >> 4) % 2 - 6) <= 1`, the successor
bit computed in the `table` initialiser (495 masks out the centre bit 4). -/
def golSuccessor (x : Nat) : Nat :=
  if ((popcount10 (x &&& 495) * 2 + (x >>> 4) % 2 : Int) - 6).natAbs ≤ 1 then 1 else 0

/-- The CGoL validity truth table: `lifeTable i = true` iff `i = x + 512 * r`
with `r` the successor of neighbourhood `x`. -/
def lifeTable (i : Nat) : Bool :=
  golSuccessor (i % 512) == i / 512

/-- The inner `for` loop of the `primeImplicants` initialiser:
`force` starts at `care` and steps `force = (force - 1) & care`, stopping
after `force = 0`.  Every subset of `care` appears exactly once.  The first
argument is fuel; since each step strictly decreases `f`, fuel `care`
suffices (the fuel-exhausted branch is unreachable, see
`forceSeqAux_fuel_irrel`). -/
def forceSeqAux (care : Nat) : Nat → Nat → List Nat
  | _, 0 => [0]
  | 0, f => [f]
  | fuel + 1, f => f :: forceSeqAux care fuel ((f - 1) &&& care)

def forceSeq (care : Nat) : List Nat := forceSeqAux care care care

/-- A number is bounded below by anything it is or-ed with. -/
theorem le_lor_self (a b : Nat) : a ≤ a ||| b :=
  Nat.le_of_testBit (fun i h => by simp [Nat.testBit_or, h])

/-- The superset enumeration `for (x = care; x < 1024; x = (x + 1) | care)`.
The first argument is fuel; since `x` strictly increases, fuel `1024`
suffices and the fuel-exhausted branch is unreachable. -/
def supersAux (care : Nat) : Nat → Nat → List Nat
  | 0, _ => []
  | fuel + 1, x => if x < 1024 then x :: supersAux care fuel ((x + 1) ||| care) else []

def supersOf (care : Nat) : List Nat := supersAux care 1024 care

/-- The body of the `primeImplicants` initialiser for one `(care, force)`
candidate: keep the pair iff no superset `x` of `care` has
`table[x ^ force]` set, and no previously kept `(a, b)` subsumes it. -/
def piStep (care : Nat) (ans : List (Nat × Nat)) (force : Nat) : List (Nat × Nat) :=
  if ((supersOf care).all fun x => !lifeTable (x ^^^ force)) &&
     (ans.all fun ab => !(ab.1 &&& care == ab.1 && ab.1 &&& force == ab.2)) then
    ans ++ [(care, force)]
  else
    ans

/-- One iteration of the outer `care` loop: fold the descending subset
sequence of `care` through `piStep`. -/
def piCare (ans : List (Nat × Nat)) (care : Nat) : List (Nat × Nat) :=
  (forceSeq care).foldl (piStep care) ans

/-- The prime-implicant table of `sat_logic.hpp`: a fold over
`care = 1, …, 1023` and, inside, over the descending subset sequence of
`care`. -/
def primeImplicants : List (Nat × Nat) :=
  (List.range' 1 1023).foldl piCare []

/-- The accumulator after the outer loop has processed `care = 1, …, k`. -/
def ansUpTo (k : Nat) : List (Nat × Nat) :=
  (List.range' 1 k).foldl piCare []

/-- The soundness test of a candidate pair: no superset `x` of `care` has
`table[x ^ force]` set (the first `goto no` in the source). -/
def soundPI (cf : Nat × Nat) : Bool :=
  (supersOf cf.1).all fun x => !lifeTable (x ^^^ cf.2)

/-! ### Membership characterisation of the two enumerations -/

theorem lor_and_absorb (a c : Nat) : (a ||| c) &&& c = c := by
  apply Nat.eq_of_testBit_eq
  intro i
  rw [Nat.testBit_and, Nat.testBit_or]
  cases c.testBit i <;> simp

theorem mem_supersAux {c : Nat} : ∀ (fuel x : Nat), x &&& c = c →
    ∀ m ∈ supersAux c fuel x, m &&& c = c ∧ m < 1024 := by
  intro fuel
  induction fuel with
  | zero => intro x _ m hm; simp [supersAux] at hm
  | succ n ih =>
    intro x hx m hm
    rw [supersAux] at hm
    by_cases hlt : x < 1024
    · rw [if_pos hlt] at hm
      rcases List.mem_cons.mp hm with h | h
      · subst h; exact ⟨hx, hlt⟩
      · exact ih _ (lor_and_absorb _ _) m h
    · rw [if_neg hlt] at hm; simp at hm

theorem mem_supersAux_complete {c : Nat} : ∀ (fuel x y : Nat), 1024 - x ≤ fuel →
    x &&& c = c → y &&& c = c → x ≤ y → y < 1024 → y ∈ supersAux c fuel x := by
  intro fuel
  induction fuel with
  | zero => intro x y hfuel _ _ hxy hy; omega
  | succ n ih =>
    intro x y hfuel hx hy hxy hylt
    rw [supersAux, if_pos (by omega)]
    rcases Nat.eq_or_lt_of_le hxy with he | hlt
    · subst he; exact List.mem_cons_self _ _
    · apply List.mem_cons_of_mem
      have hnext : (x + 1) ||| c ≤ y := next_superset_le hx hy hlt
      have hxle : x + 1 ≤ (x + 1) ||| c := le_lor_self _ _
      exact ih _ y (by omega) (lor_and_absorb _ _) hy hnext hylt

theorem mem_supersOf_iff {c y : Nat} (hc : c < 1024) :
    y ∈ supersOf c ↔ y &&& c = c ∧ y < 1024 := by
  constructor
  · exact fun h => mem_supersAux 1024 c (Nat.and_self c) y h
  · rintro ⟨h1, h2⟩
    exact mem_supersAux_complete 1024 c y (by omega) (Nat.and_self c) h1
      (by have := Nat.and_le_left (n := y) (m := c); omega) h2

theorem forceSeqAux_succ (c n k : Nat) :
    forceSeqAux c (n + 1) (k + 1) = (k + 1) :: forceSeqAux c n (k &&& c) := rfl

theorem mem_forceSeqAux {c : Nat} : ∀ (fuel f : Nat), f &&& c = f →
    ∀ m ∈ forceSeqAux c fuel f, m &&& c = m ∧ m ≤ f := by
  intro fuel
  induction fuel with
  | zero =>
    intro f hf m hm
    cases f with
    | zero => simp [forceSeqAux] at hm; subst hm; simp [hf]
    | succ k => simp [forceSeqAux] at hm; subst hm; exact ⟨hf, le_refl _⟩
  | succ n ih =>
    intro f hf m hm
    cases f with
    | zero => simp [forceSeqAux] at hm; subst hm; simp [hf]
    | succ k =>
      rw [forceSeqAux_succ] at hm
      rcases List.mem_cons.mp hm with h | h
      · subst h; exact ⟨hf, le_refl _⟩
      · have hsub : (k &&& c) &&& c = k &&& c := by
          rw [Nat.and_assoc, Nat.and_self]
        obtain ⟨h1, h2⟩ := ih (k &&& c) hsub m h
        have : k &&& c ≤ k := Nat.and_le_left
        exact ⟨h1, by omega⟩

theorem mem_forceSeqAux_complete {c : Nat} : ∀ (fuel f g : Nat), f ≤ fuel →
    f &&& c = f → g &&& c = g → g ≤ f → g ∈ forceSeqAux c fuel f := by
  intro fuel
  induction fuel with
  | zero =>
    intro f g hfuel hf hg hgf
    have : f = 0 := by omega
    subst this
    have : g = 0 := by omega
    subst this
    simp [forceSeqAux]
  | succ n ih =>
    intro f g hfuel hf hg hgf
    cases f with
    | zero =>
      have : g = 0 := by omega
      subst this; simp [forceSeqAux]
    | succ k =>
      rw [forceSeqAux_succ]
      rcases Nat.eq_or_lt_of_le hgf with he | hlt
      · subst he; exact List.mem_cons_self _ _
      · apply List.mem_cons_of_mem
        have hnext : g ≤ (k + 1 - 1) &&& c := next_subset_ge hf hg hlt
        simp only [Nat.add_sub_cancel] at hnext
        have hsub : (k &&& c) &&& c = k &&& c := by
          rw [Nat.and_assoc, Nat.and_self]
        have : k &&& c ≤ k := Nat.and_le_left
        exact ih (k &&& c) g (by omega) hsub hg hnext

theorem mem_forceSeq_iff {c g : Nat} : g ∈ forceSeq c ↔ g &&& c = g := by
  constructor
  · exact fun h => (mem_forceSeqAux c c (Nat.and_self c) g h).1
  · intro h
    have : g ≤ c := by have := Nat.and_le_right (n := g) (m := c); omega
    exact mem_forceSeqAux_complete c c g (le_refl c) (Nat.and_self c) h this

/-! ### Structural properties of the prime-implicant fold

The table is never evaluated in full; instead the fold is analysed
structurally: membership is monotone (the fold only appends), every kept
pair passed its own soundness filter, and every sound candidate examined by
the loop is covered by some kept pair (either itself, or the earlier pair
that subsumed it). -/

theorem and_1023_eq {x : Nat} (h : x < 1024) : x &&& 1023 = x := by
  apply Nat.eq_of_testBit_eq
  intro i
  rw [Nat.testBit_and]
  by_cases hi : i < 10
  · have h1 : (1023 : Nat).testBit i = true := by
      have h2 : (1023 : Nat) = 2 ^ 10 - 1 := by norm_num
      rw [h2, Nat.testBit_two_pow_sub_one]
      simp [hi]
    simp [h1]
  · have hx : x.testBit i = false := by
      apply Nat.testBit_eq_false_of_lt
      calc x < 1024 := h
        _ = 2 ^ 10 := by norm_num
        _ ≤ 2 ^ i := Nat.pow_le_pow_right (by norm_num) (by omega)
    simp [hx]

/-- `piStep` only ever appends to the accumulator. -/
theorem piStep_extends (care : Nat) (ans : List (Nat × Nat)) (f : Nat) :
    ans <+: piStep care ans f := by
  unfold piStep
  split
  · exact ⟨[(care, f)], rfl⟩
  · exact List.prefix_refl ans

theorem foldl_piStep_extends (care : Nat) :
    ∀ (l : List Nat) (ans : List (Nat × Nat)), ans <+: l.foldl (piStep care) ans := by
  intro l
  induction l with
  | nil => exact fun ans => List.prefix_refl ans
  | cons f t ih =>
    intro ans
    exact (piStep_extends care ans f).trans (ih (piStep care ans f))

theorem piCare_extends (ans : List (Nat × Nat)) (care : Nat) : ans <+: piCare ans care :=
  foldl_piStep_extends care (forceSeq care) ans

theorem foldl_piCare_extends :
    ∀ (l : List Nat) (ans : List (Nat × Nat)), ans <+: l.foldl piCare ans := by
  intro l
  induction l with
  | nil => exact fun ans => List.prefix_refl ans
  | cons c t ih =>
    intro ans
    exact (piCare_extends ans c).trans (ih (piCare ans c))

/-- The covering relation: clause `(a, b)` is falsified exactly at the
assignments `x` with `x &&& a = a ^^^ b`. -/
theorem cover_of_subsume {c f a b x : Nat} (hx : x &&& c = c ^^^ f)
    (hac : a &&& c = a) (hab : a &&& f = b) : x &&& a = a ^^^ b := by
  apply Nat.eq_of_testBit_eq
  intro i
  rw [Nat.testBit_and, Nat.testBit_xor, ← hab, Nat.testBit_and]
  cases hai : a.testBit i with
  | false => simp
  | true =>
    have hci : c.testBit i = true := testBit_of_subset hac hai
    have hxb := congrArg (fun n => n.testBit i) hx
    simp only [Nat.testBit_and, Nat.testBit_xor, hci, Bool.and_true] at hxb
    rw [hxb]
    cases f.testBit i <;> simp

/-- If a sound candidate `(c, f)` is examined by the loop, then after the
outer loop has run through `care = 1, …, k` (with `c ≤ k`), some kept pair
covers every assignment that `(c, f)` covers. -/
theorem covered_of_sound {k c f : Nat} (hc1 : 1 ≤ c) (hck : c ≤ k)
    (hf : f &&& c = f) (hs : soundPI (c, f) = true) :
    ∀ x, x &&& c = c ^^^ f → ∃ ab ∈ ansUpTo k, x &&& ab.1 = ab.1 ^^^ ab.2 := by
  intro x hx
  -- split the outer fold at care = c
  have hsplit : List.range' 1 k = List.range' 1 (c - 1) ++ c :: List.range' (c + 1) (k - c) := by
    have h1 := List.range'_append 1 (c - 1) (k - (c - 1)) 1
    simp only [Nat.one_mul] at h1
    have h2 : 1 + (c - 1) = c := by omega
    have h3 : k - (c - 1) = (k - c) + 1 := by omega
    rw [h2, h3] at h1
    have h4 : k - c + 1 + (c - 1) = k := by omega
    rw [h4] at h1
    rw [← h1, List.range'_succ]
  rw [ansUpTo, hsplit, List.foldl_append]
  set A := (List.range' 1 (c - 1)).foldl piCare [] with hA
  rw [List.foldl_cons]
  -- split the inner fold at force = f
  obtain ⟨l1, l2, hseq⟩ := List.append_of_mem (mem_forceSeq_iff.mpr hf)
  suffices hinner : ∃ ab ∈ piCare A c, x &&& ab.1 = ab.1 ^^^ ab.2 by
    obtain ⟨ab, habm, habc⟩ := hinner
    exact ⟨ab, (foldl_piCare_extends _ _).subset habm, habc⟩
  rw [piCare, hseq, List.foldl_append, List.foldl_cons]
  set B := l1.foldl (piStep c) A with hB
  have hstep : ∀ m ∈ piStep c B f, m ∈ l2.foldl (piStep c) (piStep c B f) :=
    fun m hm => (foldl_piStep_extends c l2 _).subset hm
  by_cases hmin : B.all (fun ab => !(ab.1 &&& c == ab.1 && ab.1 &&& f == ab.2)) = true
  · -- candidate is appended: it covers x itself
    have hcond : (((supersOf c).all fun y => !lifeTable (y ^^^ f)) &&
        (B.all fun ab => !(ab.1 &&& c == ab.1 && ab.1 &&& f == ab.2))) = true := by
      rw [hmin, Bool.and_true]
      exact hs
    refine ⟨(c, f), hstep _ ?_, hx⟩
    unfold piStep
    rw [if_pos hcond]
    simp
  · -- candidate subsumed by an already kept pair, which covers x as well
    have hex : ∃ ab ∈ B, (ab.1 &&& c == ab.1 && ab.1 &&& f == ab.2) = true := by
      rcases List.all_eq_false.mp (Bool.eq_false_iff.mpr hmin) with ⟨ab, habm, hab⟩
      exact ⟨ab, habm, by revert hab; cases (ab.1 &&& c == ab.1 && ab.1 &&& f == ab.2) <;> simp⟩
    obtain ⟨ab, habm, hab⟩ := hex
    rw [Bool.and_eq_true, beq_iff_eq, beq_iff_eq] at hab
    refine ⟨ab, ?_, cover_of_subsume hx hab.1 hab.2⟩
    exact hstep _ ((piStep_extends c B f).subset habm)

/-- The invariant carried by every pair kept in the table: the pair passed
its own soundness test, `force ⊆ care`, and `care ∈ [1, 1024)`. -/
def goodPI (cf : Nat × Nat) : Prop :=
  soundPI cf = true ∧ cf.2 &&& cf.1 = cf.2 ∧ 1 ≤ cf.1 ∧ cf.1 < 1024

theorem mem_piStep {care f : Nat} {ans : List (Nat × Nat)} {m : Nat × Nat}
    (hm : m ∈ piStep care ans f) :
    m ∈ ans ∨ (m = (care, f) ∧ soundPI (care, f) = true) := by
  unfold piStep at hm
  split at hm
  case isTrue hcond =>
    rcases List.mem_append.mp hm with h | h
    · exact Or.inl h
    · refine Or.inr ⟨by simpa using h, ?_⟩
      have := (Bool.and_eq_true _ _).mp hcond
      exact this.1
  case isFalse => exact Or.inl hm

theorem foldl_piStep_good {care : Nat} (hc : 1 ≤ care) (hc2 : care < 1024) :
    ∀ (l : List Nat), (∀ f ∈ l, f &&& care = f) →
    ∀ (ans : List (Nat × Nat)), (∀ m ∈ ans, goodPI m) →
    ∀ m ∈ l.foldl (piStep care) ans, goodPI m := by
  intro l
  induction l with
  | nil => intro _ ans hans m hm; exact hans m hm
  | cons f t ih =>
    intro hl ans hans m hm
    rw [List.foldl_cons] at hm
    refine ih (fun g hg => hl g (List.mem_cons_of_mem _ hg)) _ ?_ m hm
    intro m' hm'
    rcases mem_piStep hm' with h | ⟨he, hsound⟩
    · exact hans m' h
    · subst he
      exact ⟨hsound, hl f (List.mem_cons_self _ _), hc, hc2⟩

theorem foldl_piCare_good :
    ∀ (l : List Nat), (∀ c ∈ l, 1 ≤ c ∧ c < 1024) →
    ∀ (ans : List (Nat × Nat)), (∀ m ∈ ans, goodPI m) →
    ∀ m ∈ l.foldl piCare ans, goodPI m := by
  intro l
  induction l with
  | nil => intro _ ans hans m hm; exact hans m hm
  | cons c t ih =>
    intro hl ans hans m hm
    rw [List.foldl_cons] at hm
    refine ih (fun g hg => hl g (List.mem_cons_of_mem _ hg)) _ ?_ m hm
    obtain ⟨h1, h2⟩ := hl c (List.mem_cons_self _ _)
    exact foldl_piStep_good h1 h2 (forceSeq c)
      (fun f hf => mem_forceSeq_iff.mp hf) ans hans

theorem primeImplicants_good : ∀ m ∈ primeImplicants, goodPI m := by
  intro m hm
  refine foldl_piCare_good (List.range' 1 1023) ?_ [] (by simp) m hm
  intro c hc
  rw [List.mem_range'_1] at hc
  omega

/-- Every pair `(care, force)` kept in `primeImplicants` satisfies
`lifeTable (x ^^^ force) = false` for every superset `x` of `care`
(this is what the first `goto no` filter enforces). -/
theorem primeImplicants_sound : ∀ cf ∈ primeImplicants, ∀ x,
    x &&& cf.1 = cf.1 → x < 1024 → lifeTable (x ^^^ cf.2) = false := by
  intro cf hcf x hx hxlt
  obtain ⟨hsound, _, _, hlt⟩ := primeImplicants_good cf hcf
  have hmem : x ∈ supersOf cf.1 := (mem_supersOf_iff hlt).mpr ⟨hx, hxlt⟩
  have := List.all_eq_true.mp hsound x hmem
  revert this
  cases lifeTable (x ^^^ cf.2) <;> simp

/-- Every invalid point of the 10-bit `(neighbourhood, next)` space is
covered by (falsifies) at least one kept clause. -/
theorem primeImplicants_complete : ∀ i, i < 1024 → lifeTable i = false →
    ∃ ab ∈ primeImplicants, i &&& ab.1 = ab.1 ^^^ ab.2 := by
  intro i hi hInv
  have hflt : 1023 ^^^ i < 1024 := by
    have h1 : (1023 : Nat) < 2 ^ 10 := by norm_num
    have h2 : i < 2 ^ 10 := by omega
    have := Nat.xor_lt_two_pow h1 h2
    omega
  have hf : (1023 ^^^ i) &&& 1023 = 1023 ^^^ i := and_1023_eq hflt
  have hxor : 1023 ^^^ (1023 ^^^ i) = i := by
    rw [← Nat.xor_assoc, Nat.xor_self, Nat.zero_xor]
  have hs : soundPI (1023, 1023 ^^^ i) = true := by
    unfold soundPI
    rw [List.all_eq_true]
    intro y hy
    obtain ⟨hy1, hy2⟩ := (mem_supersOf_iff (by norm_num)).mp hy
    have hy3 : (1023 : Nat) ≤ y := by
      have h5 : y &&& 1023 ≤ y := Nat.and_le_left
      rw [hy1] at h5
      exact h5
    have hy4 : y = 1023 := by omega
    subst hy4
    simp only [hxor, hInv]
    rfl
  have := covered_of_sound (k := 1023) (c := 1023) (f := 1023 ^^^ i)
    (by norm_num) (by norm_num) hf hs i (by rw [and_1023_eq hi, hxor])
  exact this

/-- The zero force value appears exactly once, at the very end of the
descending subset enumeration. -/
theorem forceSeqAux_zero_last {c : Nat} : ∀ (fuel f : Nat), 0 < f → f ≤ fuel →
    ∃ l, forceSeqAux c fuel f = l ++ [0] ∧ ∀ g ∈ l, 0 < g := by
  intro fuel
  induction fuel with
  | zero => intro f h1 h2; omega
  | succ n ih =>
    intro f h1 h2
    cases f with
    | zero => omega
    | succ k =>
      rw [forceSeqAux_succ]
      by_cases hz : k &&& c = 0
      · refine ⟨[k + 1], ?_, by intro g hg; simp at hg; omega⟩
        rw [hz]
        simp [forceSeqAux]
      · have hle : k &&& c ≤ k := Nat.and_le_left
        obtain ⟨l, hl, hpos⟩ := ih (k &&& c) (by omega) (by omega)
        refine ⟨(k + 1) :: l, by rw [hl, List.cons_append], ?_⟩
        intro g hg
        rcases List.mem_cons.mp hg with h | h
        · omega
        · exact hpos g h

theorem foldl_piStep_careName {care : Nat} :
    ∀ (l : List Nat) (ans : List (Nat × Nat)) (m : Nat × Nat),
      m ∈ l.foldl (piStep care) ans → m ∈ ans ∨ (m.1 = care ∧ m.2 ∈ l) := by
  intro l
  induction l with
  | nil => intro ans m hm; exact Or.inl hm
  | cons f t ih =>
    intro ans m hm
    rw [List.foldl_cons] at hm
    rcases ih _ m hm with h | ⟨h1, h2⟩
    · rcases mem_piStep h with h' | ⟨he, _⟩
      · exact Or.inl h'
      · subst he; exact Or.inr ⟨rfl, List.mem_cons_self _ _⟩
    · exact Or.inr ⟨h1, List.mem_cons_of_mem _ h2⟩

theorem foldl_piCare_careBound {K : Nat} :
    ∀ (l : List Nat), (∀ c ∈ l, c ≤ K) →
    ∀ (ans : List (Nat × Nat)), (∀ m ∈ ans, m.1 ≤ K) →
    ∀ m ∈ l.foldl piCare ans, m.1 ≤ K := by
  intro l
  induction l with
  | nil => intro _ ans hans m hm; exact hans m hm
  | cons c t ih =>
    intro hl ans hans m hm
    rw [List.foldl_cons] at hm
    refine ih (fun g hg => hl g (List.mem_cons_of_mem _ hg)) _ ?_ m hm
    intro m' hm'
    rcases foldl_piStep_careName (forceSeq c) ans m' hm' with h | ⟨h1, _⟩
    · exact hans m' h
    · rw [h1]; exact hl c (List.mem_cons_self _ _)

set_option maxRecDepth 40000 in
theorem pair_527_mem : ((527, 0) : Nat × Nat) ∈ primeImplicants := by
  -- split the outer fold at care = 527
  have hsplit : List.range' 1 1023 = List.range' 1 526 ++ 527 :: List.range' 528 496 := by
    have h1 := List.range'_append 1 526 497 1
    simp only [Nat.one_mul] at h1
    have e1 : 1 + 526 = 527 := by norm_num
    have e2 : 497 + 526 = 1023 := by norm_num
    rw [e1, e2] at h1
    rw [← h1]
    have e3 : (497 : Nat) = 496 + 1 := by norm_num
    rw [e3, List.range'_succ 527 496 1]
  rw [primeImplicants, hsplit, List.foldl_append]
  set A := (List.range' 1 526).foldl piCare [] with hA
  rw [List.foldl_cons]
  suffices hinner : ((527, 0) : Nat × Nat) ∈ piCare A 527 by
    exact (foldl_piCare_extends _ _).subset hinner
  obtain ⟨l, hl, hpos⟩ := forceSeqAux_zero_last 527 527 (by norm_num) (le_refl _)
  rw [piCare, forceSeq, hl, List.foldl_append, List.foldl_cons, List.foldl_nil]
  set B := l.foldl (piStep 527) A with hB
  have hAgood : ∀ m ∈ A, goodPI m := by
    refine foldl_piCare_good (List.range' 1 526) ?_ [] (by simp)
    intro c hc
    rw [List.mem_range'_1] at hc
    omega
  have hmem_l : ∀ f ∈ l, f &&& 527 = f := by
    intro f hf
    apply mem_forceSeq_iff.mp
    rw [forceSeq, hl]
    exact List.mem_append_left _ hf
  have hgood : ∀ m ∈ B, goodPI m :=
    foldl_piStep_good (by norm_num) (by norm_num) l hmem_l A hAgood
  have hBmem : ∀ m ∈ B, m.1 ≤ 526 ∨ (m.1 = 527 ∧ 0 < m.2) := by
    intro m hm
    rcases foldl_piStep_careName l A m hm with h | ⟨h1, h2⟩
    · left
      refine foldl_piCare_careBound (List.range' 1 526) ?_ [] (by simp) m h
      intro c hc
      rw [List.mem_range'_1] at hc
      omega
    · exact Or.inr ⟨h1, hpos _ h2⟩
  -- no member of B subsumes (527, 0)
  have h30 : ∀ a : Nat, a < 527 → a &&& 527 = a → soundPI (a, 0) = false := by decide
  have hnosub : (B.all fun ab => !(ab.1 &&& 527 == ab.1 && ab.1 &&& 0 == ab.2)) = true := by
    rw [List.all_eq_true]
    rintro ⟨a, b⟩ habm
    cases hcond : (a &&& 527 == a && a &&& 0 == b) with
    | false => rfl
    | true =>
      exfalso
      rw [Bool.and_eq_true, beq_iff_eq, beq_iff_eq, Nat.and_zero] at hcond
      obtain ⟨hsub, hzero⟩ := hcond
      subst hzero
      rcases hBmem _ habm with h | ⟨h1, h2⟩
      · obtain ⟨hsound, -, -, -⟩ := hgood _ habm
        have hfalse : soundPI (a, 0) = false := h30 a (by simp at h; omega) hsub
        rw [hsound] at hfalse
        simp at hfalse
      · simp at h2
  have hcond : (((supersOf 527).all fun x => !lifeTable (x ^^^ 0)) &&
      (B.all fun ab => !(ab.1 &&& 527 == ab.1 && ab.1 &&& 0 == ab.2))) = true := by
    rw [hnosub, Bool.and_true]
    decide
  show (527, 0) ∈ piStep 527 B 0
  unfold piStep
  rw [if_pos hcond]
  simp

/-! ## Claim C4 -/

/-- C4 (counterexample): the kept pair `(care, force) = (527, 0)` (the first
entry of the table: `care` = the four low neighbour bits plus the next-state
bit, `force = 0`) together with the superset `x = 527` of `care` has
`f(x ^^^ force) = f(527) = 0`, not `1` as the claim states: the pair encodes
the clause "four live neighbours force a dead successor", so the assignments
it selects are exactly *invalid* transitions. -/
theorem c4_counterexample :
    ((527, 0) : Nat × Nat) ∈ primeImplicants ∧ 527 &&& 527 = 527 ∧
      lifeTable (527 ^^^ 0) ≠ true :=
  ⟨pair_527_mem, by decide, by decide⟩

/-- C4 (amended): every pair `(care, force)` kept in the prime-implicant
table satisfies, for every 10-bit `x ⊇ care`, `f(x ^^^ force) = 0` — the
pattern a kept clause forbids consists solely of invalid transitions (the
source keeps a pair only if no superset `x` of `care` has `table[x ^ force]`
set). -/
theorem c4_kept_pairs_select_invalid : ∀ cf ∈ primeImplicants, ∀ x,
    x &&& cf.1 = cf.1 → x < 1024 → lifeTable (x ^^^ cf.2) = false :=
  primeImplicants_sound

/-- C4 (witness): the amended theorem applied to the concrete kept pair
`(527, 0)` at `x = 527`. -/
theorem c4_witness : lifeTable (527 ^^^ 0) = false :=
  c4_kept_pairs_select_invalid (527, 0) pair_527_mem 527 (by decide) (by decide)

/-! ## geometry.hpp -/

/-- `Point`: `(x, y, t)` spacetime coordinates (`std::tuple<int,int,int>`).
Componentwise addition and subtraction and lexicographic comparison come
from the tuple structure; `pointLt` below spells out the lexicographic
`operator<`. -/
abbrev Point := Int × Int × Int

/-- The lexicographic `operator<` of `std::tuple<int, int, int>`. -/
def pointLt (p q : Point) : Bool :=
  p.1 < q.1 ∨ (p.1 = q.1 ∧ (p.2.1 < q.2.1 ∨ (p.2.1 = q.2.1 ∧ p.2.2 < q.2.2)))

/-- The lexicographic `operator<=` on points (`std::set<Point>` iterates in
ascending lexicographic order). -/
def pointLe (p q : Point) : Prop :=
  p.1 < q.1 ∨ (p.1 = q.1 ∧ (p.2.1 < q.2.1 ∨ (p.2.1 = q.2.1 ∧ p.2.2 ≤ q.2.2)))

instance : DecidableRel pointLe := fun p q => by
  unfold pointLe
  infer_instance

instance : IsTrans Point pointLe where
  trans p q r hpq hqr := by
    rcases p with ⟨px, py, pt⟩
    rcases q with ⟨qx, qy, qt⟩
    rcases r with ⟨rx, ry, rt⟩
    simp only [pointLe] at *
    omega

instance : IsAntisymm Point pointLe where
  antisymm p q hpq hqp := by
    rcases p with ⟨px, py, pt⟩
    rcases q with ⟨qx, qy, qt⟩
    simp only [pointLe] at *
    have h1 : px = qx := by omega
    have h2 : py = qy := by omega
    have h3 : pt = qt := by omega
    simp [h1, h2, h3]

instance : IsTotal Point pointLe where
  total p q := by
    rcases p with ⟨px, py, pt⟩
    rcases q with ⟨qx, qy, qt⟩
    simp only [pointLe]
    omega

/-- `AffineTransf`: `(a1, a2, a3, a4, a5, a6, a7)` representing
`(x, y, t) ↦ (a1 x + a2 y + a5, a3 x + a4 y + a6, t + a7)`. -/
structure AffineTransf where
  a1 : Int
  a2 : Int
  a3 : Int
  a4 : Int
  a5 : Int
  a6 : Int
  a7 : Int
deriving DecidableEq, Repr

def IDENTITY : AffineTransf := ⟨1, 0, 0, 1, 0, 0, 0⟩

def transform (t : AffineTransf) (p : Point) : Point :=
  (t.a1 * p.1 + t.a2 * p.2.1 + t.a5,
   t.a3 * p.1 + t.a4 * p.2.1 + t.a6,
   p.2.2 + t.a7)

def spatial_only (t : AffineTransf) : Bool := t.a7 == 0

/-- `Limits`: a closed interval `[first, second]`. -/
abbrev Limits := Int × Int

def EMPTY_LIMITS : Limits := (0, -1)

/-- `Bounds`: `(xlimits, ylimits, tlimits)`. -/
abbrev Bounds := Limits × Limits × Limits

def in_limits (p : Point) (b : Bounds) : Bool :=
  b.1.1 ≤ p.1 ∧ p.1 ≤ b.1.2 ∧
  b.2.1.1 ≤ p.2.1 ∧ p.2.1 ≤ b.2.1.2 ∧
  b.2.2.1 ≤ p.2.2 ∧ p.2.2 ≤ b.2.2.2

def boundsAdd (b : Bounds) (p : Point) : Bounds :=
  ((b.1.1 + p.1, b.1.2 + p.1),
   (b.2.1.1 + p.2.1, b.2.1.2 + p.2.1),
   (b.2.2.1 + p.2.2, b.2.2.2 + p.2.2))

def EMPTY_BOUNDS : Bounds := (EMPTY_LIMITS, EMPTY_LIMITS, EMPTY_LIMITS)

/-- `find_new_images`: one round of expansion — all in-bounds transform
images of the current set that are not yet in the set. -/
def find_new_images (points : Finset Point) (transf_list : List AffineTransf)
    (bounds : Bounds) : Finset Point :=
  points.biUnion fun p =>
    (transf_list.map (fun t => transform t p)).toFinset.filter
      fun q => q ∉ points ∧ in_limits q bounds

/-- The number of points inside `bounds` (used only as a fuel bound for the
`find_all_images` loop, which adds at least one in-bounds point per
iteration). -/
def boundsSize (b : Bounds) : Nat :=
  (b.1.2 + 1 - b.1.1).toNat * (b.2.1.2 + 1 - b.2.1.1).toNat * (b.2.2.2 + 1 - b.2.2.1).toNat

/-- The `while (!new_images.empty())` loop of `find_all_images`. -/
def findAllImagesAux (transf_list : List AffineTransf) (bounds : Bounds) :
    Nat → Finset Point → Finset Point
  | 0, images => images
  | fuel + 1, images =>
    let new_images := find_new_images images transf_list bounds
    if new_images = ∅ then images
    else findAllImagesAux transf_list bounds fuel (images ∪ new_images)

def find_all_images (p : Point) (transf_list : List AffineTransf)
    (bounds : Bounds) : Finset Point :=
  findAllImagesAux transf_list bounds (boundsSize bounds + 1) {p}

/-! ## sub_pattern.hpp : clause types and the clause builder -/

/-- A `Clause` is the `std::array<int, 9>` of sorted literals, zero-padded,
modelled as the list of its nine entries. -/
abbrev Clause := List Int

abbrev ClauseList := List Clause

/-- `ClauseBuilder`: accumulates literals, detecting tautologies.  `lits`
holds the literals added so far, in insertion order (the C++ array slots
`0 … count-1`). -/
structure ClauseBuilder where
  lits : List Int
  tautology : Bool
deriving DecidableEq, Repr

def ClauseBuilder.init : ClauseBuilder := ⟨[], false⟩

/-- `ClauseBuilder::add`: returns the updated builder and the
"became a tautology" flag; throws on overflow past 9 literals. -/
def ClauseBuilder.add (b : ClauseBuilder) (literal : Int) :
    Except String (ClauseBuilder × Bool) :=
  if b.tautology then .ok (b, true)
  else if b.lits.contains (-literal) then .ok ({ b with tautology := true }, true)
  else if 9 ≤ b.lits.length then
    .error "ClauseBuilder: clause exceeds MAX_CLAUSE_LEN literals"
  else .ok ({ b with lits := b.lits ++ [literal] }, false)

def ClauseBuilder.isEmpty (b : ClauseBuilder) : Bool := b.lits.isEmpty

/-- `ClauseBuilder::get`: the sorted literals followed by the zero padding
of the fixed-size array. -/
def ClauseBuilder.get (b : ClauseBuilder) : Clause :=
  b.lits.mergeSort (· ≤ ·) ++ List.replicate (9 - b.lits.length) 0

/-! ### The shared prime-implicant clause-emission loop

`VariablePattern::get_clauses` and `SearchProblem::get_clauses` contain the
same inner double loop (over the prime-implicant table and over the ten
bits); it is embedded once.  `ten_cells` is the array of the nine
neighbourhood ids and the output id. -/

/-- The `for (bit = 0; bit < 10; bit++)` body; returns the builder and the
`clause_satisfied` flag (the loop `break`s as soon as it is set). -/
def emitBits (ten_cells : List Int) (care force : Nat) :
    List Nat → ClauseBuilder → Except String (ClauseBuilder × Bool)
  | [], b => .ok (b, false)
  | bit :: rest, b =>
    if care &&& (1 <<< bit) ≠ 0 then
      let var_index := ten_cells.getD bit 0
      if var_index < 2 then
        -- known cell: a matching forced state satisfies the whole clause
        if (var_index ≠ 0) = (force &&& (1 <<< bit) ≠ 0) then .ok (b, true)
        else emitBits ten_cells care force rest b
      else
        let sign : Int := if force &&& (1 <<< bit) ≠ 0 then 1 else -1
        do
          let (b', sat) ← b.add (sign * (var_index - 1))
          if sat then .ok (b', true) else emitBits ten_cells care force rest b'
    else emitBits ten_cells care force rest b

/-- Clause generation for a single `(care, force)` pair: `none` when the
clause is satisfied, tautological or empty. -/
def emitClause (ten_cells : List Int) (cf : Nat × Nat) :
    Except String (Option Clause) := do
  let (b, sat) ← emitBits ten_cells cf.1 cf.2 (List.range 10) ClauseBuilder.init
  if !sat && !b.isEmpty then return some b.get else return none

/-- All clauses of one transition: the loop over the prime-implicant
table. -/
def transitionClauses (ten_cells : List Int) : Except String ClauseList :=
  primeImplicants.foldlM
    (fun acc cf => do
      match ← emitClause ten_cells cf with
      | some cl => return acc ++ [cl]
      | none => return acc)
    []

/-! ## union_find.hpp

The parent map is modelled as the list of its non-trivial links
`(child, parent)`, most recent first; a key absent from the list is its own
parent, which also models `find`'s auto-insertion of unknown keys.
`unite` hangs the larger root under the smaller one (`if (rb < ra) swap`),
so parent chains strictly decrease and `find` terminates within
`links.length + 1` steps; path compression is omitted as it never changes
the result of `find`. -/

def assocFind {α β : Type} [DecidableEq α] : List (α × β) → α → Option β
  | [], _ => none
  | (k, v) :: t, x => if x = k then some v else assocFind t x

/-- Insert-or-assign, the semantics of `operator[]` on the C++ maps. -/
def assocSet {α β : Type} [DecidableEq α] : List (α × β) → α → β → List (α × β)
  | [], k, v => [(k, v)]
  | (k', v') :: t, k, v => if k = k' then (k, v) :: t else (k', v') :: assocSet t k v

structure UnionFind (α : Type) [DecidableEq α] where
  links : List (α × α)

def parentOf {α : Type} [DecidableEq α] (links : List (α × α)) (x : α) : α :=
  (assocFind links x).getD x

def findAux {α : Type} [DecidableEq α] (links : List (α × α)) : Nat → α → α
  | 0, x => x
  | fuel + 1, x =>
    let p := parentOf links x
    if p = x then x else findAux links fuel p

def UnionFind.find {α : Type} [DecidableEq α] (u : UnionFind α) (x : α) : α :=
  findAux u.links (u.links.length + 1) x

def UnionFind.unite {α : Type} [DecidableEq α] (lt : α → α → Bool)
    (u : UnionFind α) (a b : α) : UnionFind α :=
  let ra := u.find a
  let rb := u.find b
  if ra = rb then u
  else if lt rb ra then ⟨(ra, rb) :: u.links⟩ else ⟨(rb, ra) :: u.links⟩

def UnionFind.same {α : Type} [DecidableEq α] (u : UnionFind α) (a b : α) : Bool :=
  u.find a == u.find b

/-! ## cell.hpp and cell_group.hpp -/

structure Cell where
  position : Point
  cell_group : Int
  follows_rules : Bool
  known : Bool
  state : Bool
deriving DecidableEq, Repr

instance : Inhabited Cell := ⟨⟨(0, 0, 0), -1, true, false, false⟩⟩

def is_live (c : Cell) : Bool := c.known && c.state

def is_dead (c : Cell) : Bool := c.known && !c.state

def DEFAULT_CELL_GROUP : Int := -1

structure CellGroup where
  spatial_transformations : List AffineTransf
  time_transformation : AffineTransf
deriving DecidableEq, Repr

def CellGroup.init : CellGroup := ⟨[], IDENTITY⟩

/-! ## variable_pattern.hpp -/

/-- The integers `lo, lo + 1, …, hi` (the ascending `for` loops over a
closed interval). -/
def intRange (lo hi : Int) : List Int :=
  (List.range (hi + 1 - lo).toNat).map fun i : Nat => lo + (i : Int)

/-- `VariablePattern`.  The cached fields `x_min`, `y_min`, `t_min`,
`sz_x`, `sz_y` of the C++ class always equal the values derived from
`bounds` (the constructor sets them so and `shift_by` updates them in
lock-step), so they are embedded as the accessor functions below. -/
structure VariablePattern where
  cell_groups : List CellGroup
  cell_list : List Cell
  bounds : Bounds
  is_built : Bool
  cell_to_var : List (Point × Int)
  variable_count : Int
deriving DecidableEq, Repr

namespace VariablePattern

def x_min (vp : VariablePattern) : Int := vp.bounds.1.1
def y_min (vp : VariablePattern) : Int := vp.bounds.2.1.1
def t_min (vp : VariablePattern) : Int := vp.bounds.2.2.1
def sz_x (vp : VariablePattern) : Int := vp.bounds.1.2 - vp.x_min + 1
def sz_y (vp : VariablePattern) : Int := vp.bounds.2.1.2 - vp.y_min + 1
def sz_t (vp : VariablePattern) : Int := vp.bounds.2.2.2 - vp.t_min + 1

/-- `cell_index`: flat index into `cell_list`, `none` for the C++ `-1`. -/
def cell_index (vp : VariablePattern) (p : Point) : Option Nat :=
  let lx := p.1 - vp.x_min
  let ly := p.2.1 - vp.y_min
  let lt := p.2.2 - vp.t_min
  if lx < 0 ∨ lx ≥ vp.sz_x ∨ ly < 0 ∨ ly ≥ vp.sz_y ∨ lt < 0 ∨ lt ≥ vp.sz_t then none
  else some (lt * (vp.sz_y * vp.sz_x) + ly * vp.sz_x + lx).toNat

/-- The constructor from bounds: one default cell per in-bounds position,
in `t`-major, then `y`, then `x` order. -/
def ofBounds (bounds : Bounds) : VariablePattern :=
  { cell_groups := []
    cell_list :=
      (intRange bounds.2.2.1 bounds.2.2.2).flatMap fun t =>
        (intRange bounds.2.1.1 bounds.2.1.2).flatMap fun y =>
          (intRange bounds.1.1 bounds.1.2).map fun x =>
            { position := (x, y, t)
              cell_group := DEFAULT_CELL_GROUP
              follows_rules := true
              known := false
              state := false }
    bounds := bounds
    is_built := false
    cell_to_var := []
    variable_count := 0 }

/-- The `(width, height, max_gen)` constructor. -/
def ofSize (width height max_gen : Int) : VariablePattern :=
  ofBounds ((0, width - 1), (0, height - 1), (0, max_gen))

def get_cell (vp : VariablePattern) (p : Point) : Cell :=
  match vp.cell_index p with
  | some idx => vp.cell_list.getD idx default
  | none =>
    { position := p
      cell_group := DEFAULT_CELL_GROUP
      follows_rules := true
      known := false
      state := false }

/-- `set_known` (and, through it, `set_dead` / `set_alive`): a no-op when
the point is out of bounds. -/
def set_known (vp : VariablePattern) (p : Point) (state : Bool) : VariablePattern :=
  match vp.cell_index p with
  | none => vp
  | some idx =>
    let c := vp.cell_list.getD idx default
    { vp with
        cell_list := vp.cell_list.set idx { c with known := true, state := state }
        is_built := false }

def set_dead (vp : VariablePattern) (p : Point) : VariablePattern :=
  vp.set_known p false

def set_alive (vp : VariablePattern) (p : Point) : VariablePattern :=
  vp.set_known p true

def set_cell_group (vp : VariablePattern) (p : Point) (group_idx : Int) : VariablePattern :=
  match vp.cell_index p with
  | none => vp
  | some idx =>
    let c := vp.cell_list.getD idx default
    { vp with
        cell_list := vp.cell_list.set idx { c with cell_group := group_idx }
        is_built := false }

def add_cell_group (vp : VariablePattern) (group : CellGroup) : VariablePattern × Int :=
  ({ vp with cell_groups := vp.cell_groups ++ [group], is_built := false },
   vp.cell_groups.length)

def shift_by (vp : VariablePattern) (rel_shift : Point) : VariablePattern :=
  { vp with
      bounds := boundsAdd vp.bounds rel_shift
      cell_list := vp.cell_list.map fun c => { c with position := c.position + rel_shift }
      is_built := false }

def contains (vp : VariablePattern) (p : Point) : Bool := in_limits p vp.bounds

def LIVE_SENTINEL : Point := (-9999, -9999, -9999)
def DEAD_SENTINEL : Point := (-9998, -9998, -9998)

/-- The ascending iteration order of the C++ `std::set<Point>`: the sorted
list of the finset's elements (insertion sort, which agrees with any sort by
the total antisymmetric order `pointLe`). -/
def sortedImages (s : Finset Point) : List Point :=
  Quot.liftOn s.val (fun l => l.insertionSort pointLe) fun l1 l2 h =>
    List.eq_of_perm_of_sorted
      ((l1.perm_insertionSort pointLe).trans (h.trans (l2.perm_insertionSort pointLe).symm))
      (List.sorted_insertionSort pointLe l1) (List.sorted_insertionSort pointLe l2)

/-- `build()`.  The `std::set<Point>` of spatial images is traversed in
ascending lexicographic order, hence the sort by `pointLe`. -/
def build (vp : VariablePattern) : VariablePattern :=
  -- make_set for the sentinels and each cell adds no links; known cells are
  -- united with the matching sentinel
  let uf1 : UnionFind Point := vp.cell_list.foldl
    (fun u cell =>
      if cell.known && cell.state then u.unite pointLt cell.position LIVE_SENTINEL
      else if cell.known && !cell.state then u.unite pointLt cell.position DEAD_SENTINEL
      else u)
    ⟨[]⟩
  -- apply the transformations of each cell's group
  let uf2 : UnionFind Point := vp.cell_list.foldl
    (fun u cell =>
      if cell.cell_group = DEFAULT_CELL_GROUP then u
      else
        let cell_group := vp.cell_groups.getD cell.cell_group.toNat CellGroup.init
        let images := find_all_images cell.position
          cell_group.spatial_transformations vp.bounds
        let u := (sortedImages images).foldl
          (fun u img =>
            let target := vp.get_cell img
            if target.cell_group ≠ DEFAULT_CELL_GROUP ∧
                target.cell_group ≤ cell.cell_group then
              u.unite pointLt cell.position img
            else u)
          u
        let time_img := transform cell_group.time_transformation cell.position
        if in_limits time_img vp.bounds ∧ time_img ≠ cell.position then
          let target := vp.get_cell time_img
          if target.cell_group ≠ DEFAULT_CELL_GROUP ∧
              target.cell_group ≤ cell.cell_group then
            u.unite pointLt cell.position time_img
          else u
        else u)
    uf1
  -- assign variable indices: dead root ↦ 0, live root ↦ 1 (overwriting the
  -- dead entry if the two roots coincide), then fresh ids from 2 on
  let repr0 := assocSet [] (uf2.find DEAD_SENTINEL) (0 : Int)
  let repr1 := assocSet repr0 (uf2.find LIVE_SENTINEL) (1 : Int)
  let st := vp.cell_list.foldl
    (fun (st : List (Point × Int) × Int × List (Point × Int)) cell =>
      let (repr_to_varindex, next_var_index, cell_to_var) := st
      let cell_repr := uf2.find cell.position
      let (repr_to_varindex, next_var_index) :=
        match assocFind repr_to_varindex cell_repr with
        | some _ => (repr_to_varindex, next_var_index)
        | none => (assocSet repr_to_varindex cell_repr next_var_index, next_var_index + 1)
      ((repr_to_varindex, next_var_index,
        assocSet cell_to_var cell.position ((assocFind repr_to_varindex cell_repr).getD 0)))
    )
    (repr1, 2, [])
  { vp with
      cell_to_var := st.2.2
      variable_count := st.2.1 - 2
      is_built := true }

def get_cell_value (vp : VariablePattern) (p : Point) : Int :=
  (assocFind vp.cell_to_var p).getD 0

def num_variables (vp : VariablePattern) : Int := vp.variable_count

def is_known (vp : VariablePattern) (p : Point) : Bool := (vp.get_cell p).known

def get_state (vp : VariablePattern) (p : Point) : Bool := (vp.get_cell p).state

def follows_rules (vp : VariablePattern) (p : Point) : Bool :=
  (vp.get_cell p).follows_rules

/-- The local-to-global renumbering used inside `get_clauses`. -/
def to_global (base_var_index local_val : Int) : Int :=
  if local_val < 2 then local_val else base_var_index + (local_val - 2)

/-- The `ten_cells` array gathered for the transition with output at
`(x, y, t+1)`: the nine neighbourhood ids at time `t` (`dy` outer, `dx`
inner, out-of-bounds treated as dead) and the output id. -/
def ten_cells_at (vp : VariablePattern) (base_var_index : Int) (x y t : Int) :
    List Int :=
  ([-1, 0, 1].flatMap fun dy =>
    [-1, 0, 1].map fun dx =>
      if vp.contains (x + dx, y + dy, t) then
        to_global base_var_index (vp.get_cell_value (x + dx, y + dy, t))
      else 0) ++
  [to_global base_var_index (vp.get_cell_value (x, y, t + 1))]

/-- The body of the position loop of `get_clauses`: transitions whose
output cell does not follow the rules are skipped. -/
def getClausesStep (vp : VariablePattern) (base_var_index : Int)
    (acc : ClauseList) (pos : Point) : Except String ClauseList :=
  if vp.follows_rules (pos.1, pos.2.1, pos.2.2 + 1) then do
    let cls ← transitionClauses (vp.ten_cells_at base_var_index pos.1 pos.2.1 pos.2.2)
    return acc ++ cls
  else
    return acc

def get_clauses (vp : VariablePattern) (base_var_index : Int) :
    Except String ClauseList :=
  ((intRange vp.bounds.2.2.1 (vp.bounds.2.2.2 - 1)).flatMap fun t =>
    (intRange vp.bounds.2.1.1 vp.bounds.2.1.2).flatMap fun y =>
      (intRange vp.bounds.1.1 vp.bounds.1.2).map fun x => (x, y, t)).foldlM
    (vp.getClausesStep base_var_index) []

end VariablePattern

/-! ### At most nine literals per kept pair

The clause builder caps clauses at nine literals; the following chain shows
no kept pair uses all ten bit positions: every invalid point lies in an
invalid two-point subcube missing some neighbourhood bit, so a sound
nine-bit candidate covering it is examined before `care = 1023`, and the
`care = 1023` iteration then keeps nothing. -/

theorem and_shift_ne_iff (n bit : Nat) : (n &&& (1 <<< bit) ≠ 0) ↔ n.testBit bit = true := by
  rw [Nat.one_shiftLeft, Nat.and_two_pow]
  cases h : n.testBit bit with
  | false => simp
  | true =>
    simp only [Bool.toNat_true, Nat.one_mul]
    have hne : (2 : Nat) ^ bit ≠ 0 := (Nat.pos_pow_of_pos bit (by norm_num)).ne'
    simp [hne]

theorem xor_and_subset (c i : Nat) : (c ^^^ (i &&& c)) &&& c = c ^^^ (i &&& c) := by
  apply Nat.eq_of_testBit_eq
  intro j
  simp only [Nat.testBit_and, Nat.testBit_xor]
  cases c.testBit j <;> cases i.testBit j <;> simp

/-- The only strict superset of `1023 ^^^ 2^b` (with `b < 10`) below 1024
is `1023` itself. -/
theorem supersets_of_nine_bit {b x : Nat} (hb : b < 10)
    (hx : x &&& (1023 ^^^ (1 <<< b)) = 1023 ^^^ (1 <<< b)) (hlt : x < 1024) :
    x = 1023 ^^^ (1 <<< b) ∨ x = 1023 := by
  set c := 1023 ^^^ (1 <<< b) with hc
  by_cases hbit : x.testBit b = true
  · right
    apply Nat.eq_of_testBit_eq
    intro j
    by_cases hj : j < 10
    · have h1023 : (1023 : Nat).testBit j = true := by
        have e : (1023 : Nat) = 2 ^ 10 - 1 := by norm_num
        rw [e, Nat.testBit_two_pow_sub_one]
        simp [hj]
      rw [h1023]
      by_cases hjb : j = b
      · subst hjb; exact hbit
      · have hcj : c.testBit j = true := by
          rw [hc, Nat.testBit_xor, h1023, Nat.one_shiftLeft, Nat.testBit_two_pow]
          simp [Ne.symm hjb]
        exact testBit_of_superset hx hcj
    · have hxj : x.testBit j = false := by
        apply Nat.testBit_eq_false_of_lt
        calc x < 1024 := hlt
          _ = 2 ^ 10 := by norm_num
          _ ≤ 2 ^ j := Nat.pow_le_pow_right (by norm_num) (by omega)
      have h1023 : (1023 : Nat).testBit j = false := by
        apply Nat.testBit_eq_false_of_lt
        calc (1023 : Nat) < 1024 := by norm_num
          _ = 2 ^ 10 := by norm_num
          _ ≤ 2 ^ j := Nat.pow_le_pow_right (by norm_num) (by omega)
      rw [hxj, h1023]
  · left
    apply Nat.eq_of_testBit_eq
    intro j
    by_cases hjb : j = b
    · have hcb : c.testBit b = false := by
        rw [hc, Nat.testBit_xor, Nat.one_shiftLeft, Nat.testBit_two_pow]
        have h1023 : (1023 : Nat).testBit b = true := by
          have e : (1023 : Nat) = 2 ^ 10 - 1 := by norm_num
          rw [e, Nat.testBit_two_pow_sub_one]
          simp [hb]
        simp [h1023]
      rw [hjb, hcb]
      cases hxb : x.testBit b with
      | false => rfl
      | true => exact absurd hxb (by simp [hbit])
    · by_cases hj : j < 10
      · by_cases hcj : c.testBit j = true
        · rw [testBit_of_superset hx hcj, hcj]
        · -- c has every bit < 10 set except b, so j with c_j false and j ≠ b is impossible
          exfalso
          apply hcj
          have h1023 : (1023 : Nat).testBit j = true := by
            have e : (1023 : Nat) = 2 ^ 10 - 1 := by norm_num
            rw [e, Nat.testBit_two_pow_sub_one]
            simp [hj]
          rw [hc, Nat.testBit_xor, h1023, Nat.one_shiftLeft, Nat.testBit_two_pow]
          simp [Ne.symm hjb]
      · have hxj : x.testBit j = false := by
          apply Nat.testBit_eq_false_of_lt
          calc x < 1024 := hlt
            _ = 2 ^ 10 := by norm_num
            _ ≤ 2 ^ j := Nat.pow_le_pow_right (by norm_num) (by omega)
        have hcjf : c.testBit j = false := by
          have : c &&& c = c := Nat.and_self c
          by_contra hcj
          rw [Bool.not_eq_false] at hcj
          have := testBit_of_superset hx hcj
          rw [hxj] at this
          exact absurd this (by simp)
        rw [hxj, hcjf]

theorem supersOf_1023 : supersOf 1023 = [1023] := by decide

theorem soundPI_1023 (f : Nat) : soundPI (1023, f) = !lifeTable (1023 ^^^ f) := by
  show (supersOf 1023).all (fun x => !lifeTable (x ^^^ f)) = !lifeTable (1023 ^^^ f)
  rw [supersOf_1023]
  simp

set_option maxRecDepth 100000 in
/-- Every invalid point is covered by a pair kept while `care ≤ 1022`:
the two-point subcube `{i, i ^^^ 2^b}` (with `b` the neighbourhood bit from
the flip property of B3/S23) is a sound nine-bit candidate examined before
`care = 1023`. -/
theorem invalid_covered_early : ∀ i, i < 1024 → lifeTable i = false →
    ∃ ab ∈ ansUpTo 1022, i &&& ab.1 = ab.1 ^^^ ab.2 := by
  have hflip : ∀ i, i < 1024 → lifeTable i = false →
      ∃ b, b < 9 ∧ lifeTable (i ^^^ (1 <<< b)) = false := by decide
  intro i hi hInv
  obtain ⟨b, hb9, hbInv⟩ := hflip i hi hInv
  set c := 1023 ^^^ (1 <<< b) with hc
  clear_value c
  have hshift : (1 <<< b : Nat) = 2 ^ b := Nat.one_shiftLeft b
  have hblt : (1 <<< b : Nat) ≤ 512 := by
    rw [hshift]
    calc (2 : Nat) ^ b ≤ 2 ^ 8 := Nat.pow_le_pow_right (by norm_num) (by omega)
      _ ≤ 512 := by norm_num
  have hbpos : (0 : Nat) < 1 <<< b := by rw [hshift]; positivity
  have h1023bit : ∀ j, j < 10 → (1023 : Nat).testBit j = true := by decide
  have h1023out : ∀ j, ¬ j < 10 → (1023 : Nat).testBit j = false := by
    intro j hj
    apply Nat.testBit_eq_false_of_lt
    calc (1023 : Nat) < 2 ^ 10 := by norm_num
      _ ≤ 2 ^ j := Nat.pow_le_pow_right (by norm_num) (by omega)
  have hibit_out : ∀ j, ¬ j < 10 → i.testBit j = false := by
    intro j hj
    apply Nat.testBit_eq_false_of_lt
    calc i < 1024 := hi
      _ = 2 ^ 10 := by norm_num
      _ ≤ 2 ^ j := Nat.pow_le_pow_right (by norm_num) (by omega)
  have hpow_bit : ∀ j, (1 <<< b : Nat).testBit j = decide (b = j) := by
    intro j
    rw [hshift, Nat.testBit_two_pow]
  have hcbit_b : c.testBit b = false := by
    rw [hc, Nat.testBit_xor, h1023bit b (by omega), hpow_bit]
    simp
  have hcbit_in : ∀ j, j < 10 → j ≠ b → c.testBit j = true := by
    intro j hj hjb
    rw [hc, Nat.testBit_xor, h1023bit j hj, hpow_bit]
    simp [Ne.symm hjb]
  have hcbit_out : ∀ j, ¬ j < 10 → c.testBit j = false := by
    intro j hj
    rw [hc, Nat.testBit_xor, h1023out j hj, hpow_bit]
    simp
    omega
  have hclt : c < 1024 := by
    rw [hc]
    have h1 : (1023 : Nat) < 2 ^ 10 := by norm_num
    have h2 : (1 <<< b : Nat) < 2 ^ 10 := by omega
    have := Nat.xor_lt_two_pow h1 h2
    omega
  have hcpos : 1 ≤ c := by
    rcases Nat.eq_zero_or_pos c with h0 | h0
    · exfalso
      have h1 : (1023 : Nat) = 1 <<< b := Nat.xor_eq_zero.mp (by rw [← hc]; exact h0)
      omega
    · exact h0
  have hcne : c ≠ 1023 := by
    intro he
    have h1 := congrArg (fun n => n.testBit b) he
    simp only at h1
    rw [hcbit_b, h1023bit b (by omega)] at h1
    exact absurd h1 (by simp)
  have hcle : c ≤ 1022 := by omega
  set f := c ^^^ (i &&& c) with hf
  clear_value f
  have hfc : f &&& c = f := by rw [hf]; exact xor_and_subset c i
  have hcf : c ^^^ f = i &&& c := by
    rw [hf, ← Nat.xor_assoc, Nat.xor_self, Nat.zero_xor]
  have hpair : i &&& c = i ∨ i &&& c = i ^^^ (1 <<< b) := by
    cases hib : i.testBit b with
    | false =>
      left
      apply Nat.eq_of_testBit_eq
      intro j
      rw [Nat.testBit_and]
      by_cases hjb : j = b
      · rw [hjb]; simp [hib, hcbit_b]
      · by_cases hj : j < 10
        · rw [hcbit_in j hj hjb]; simp
        · rw [hibit_out j hj]; simp
    | true =>
      right
      apply Nat.eq_of_testBit_eq
      intro j
      rw [Nat.testBit_and, Nat.testBit_xor, hpow_bit]
      by_cases hjb : j = b
      · rw [hjb]; simp [hib, hcbit_b]
      · by_cases hj : j < 10
        · rw [hcbit_in j hj hjb]
          simp [Ne.symm hjb]
        · rw [hibit_out j hj]
          simp [Ne.symm hjb]
  have hother : (1023 : Nat) ^^^ f = (i &&& c) ^^^ (1 <<< b) := by
    have h1 : (1023 : Nat) ^^^ c = 1 <<< b := by
      rw [hc, ← Nat.xor_assoc, Nat.xor_self, Nat.zero_xor]
    rw [hf, ← Nat.xor_assoc, h1, Nat.xor_comm (1 <<< b) _]
  have hsound : soundPI (c, f) = true := by
    show (supersOf c).all (fun x => !lifeTable (x ^^^ f)) = true
    rw [List.all_eq_true]
    intro y hy
    obtain ⟨hy1, hy2⟩ := (mem_supersOf_iff hclt).mp hy
    have hy1' : y &&& (1023 ^^^ (1 <<< b)) = 1023 ^^^ (1 <<< b) := by rw [← hc]; exact hy1
    rcases supersets_of_nine_bit (show b < 10 by omega) hy1' hy2 with he | he
    · rw [show y = c by rw [he, hc], hcf]
      rcases hpair with hp | hp <;> rw [hp]
      · simp [hInv]
      · simp [hbInv]
    · rw [he, hother]
      rcases hpair with hp | hp <;> rw [hp]
      · simp [hbInv]
      · rw [Nat.xor_assoc, Nat.xor_self, Nat.xor_zero]
        simp [hInv]
  exact covered_of_sound hcpos hcle hfc hsound i (by rw [hcf])

/-- From a cover of `i` one recovers the subsumption test for the candidate
`(1023, 1023 ^^^ i)`. -/
theorem subsume_of_cover {i a b : Nat} (hcov : i &&& a = a ^^^ b)
    (ha : a < 1024) (hba : b &&& a = b) : a &&& (1023 ^^^ i) = b := by
  apply Nat.eq_of_testBit_eq
  intro j
  rw [Nat.testBit_and, Nat.testBit_xor]
  cases haj : a.testBit j with
  | false =>
    have hbj : b.testBit j = false := by
      have := congrArg (fun n => n.testBit j) hba
      simp only [Nat.testBit_and, haj, Bool.and_false] at this
      exact this.symm
    simp [hbj]
  | true =>
    have hj10 : j < 10 := by
      by_contra hj
      have : a.testBit j = false := by
        apply Nat.testBit_eq_false_of_lt
        calc a < 1024 := ha
          _ = 2 ^ 10 := by norm_num
          _ ≤ 2 ^ j := Nat.pow_le_pow_right (by norm_num) (by omega)
      rw [haj] at this
      exact absurd this (by simp)
    have h1023j : (1023 : Nat).testBit j = true := by
      have e : (1023 : Nat) = 2 ^ 10 - 1 := by norm_num
      rw [e, Nat.testBit_two_pow_sub_one]
      simp [hj10]
    have hcovj := congrArg (fun n => n.testBit j) hcov
    simp only [Nat.testBit_and, Nat.testBit_xor, haj, Bool.and_true, Bool.xor_true] at hcovj
    rw [h1023j]
    cases hbj : b.testBit j with
    | false => rw [hbj] at hcovj; simp at hcovj; simp [hcovj]
    | true => rw [hbj] at hcovj; simp at hcovj; simp [hcovj]

/-- The last outer iteration (`care = 1023`) keeps nothing: every sound
full-width candidate is already subsumed by a pair kept earlier. -/
theorem piCare_1023_id : piCare (ansUpTo 1022) 1023 = ansUpTo 1022 := by
  have hAgood : ∀ m ∈ ansUpTo 1022, goodPI m := by
    refine foldl_piCare_good (List.range' 1 1022) ?_ [] (by simp)
    intro c hc
    rw [List.mem_range'_1] at hc
    omega
  have hstep : ∀ f, f &&& 1023 = f → piStep 1023 (ansUpTo 1022) f = ansUpTo 1022 := by
    intro f hfsub
    unfold piStep
    rw [if_neg]
    intro hcond
    rw [Bool.and_eq_true] at hcond
    obtain ⟨hsound, hmin⟩ := hcond
    have hsound' : soundPI (1023, f) = true := hsound
    rw [soundPI_1023] at hsound'
    have hInv : lifeTable (1023 ^^^ f) = false := by
      cases h : lifeTable (1023 ^^^ f) with
      | false => rfl
      | true => rw [h] at hsound'; exact absurd hsound' (by simp)
    have hflt : f < 1024 := by
      have : f ≤ 1023 := by
        have := Nat.and_le_right (n := f) (m := 1023)
        omega
      omega
    have hilt : 1023 ^^^ f < 1024 := by
      have h1 : (1023 : Nat) < 2 ^ 10 := by norm_num
      have h2 : f < 2 ^ 10 := by omega
      have := Nat.xor_lt_two_pow h1 h2
      omega
    obtain ⟨ab, habm, hcov⟩ := invalid_covered_early (1023 ^^^ f) hilt hInv
    obtain ⟨-, hba, -, halt⟩ := hAgood ab habm
    have hsub1 : ab.1 &&& 1023 = ab.1 := and_1023_eq halt
    have hsub2 : ab.1 &&& f = ab.2 := by
      have h1 := subsume_of_cover hcov halt hba
      rw [← Nat.xor_assoc, Nat.xor_self, Nat.zero_xor] at h1
      exact h1
    have := List.all_eq_true.mp hmin ab habm
    rw [hsub1, hsub2] at this
    simp at this
  have haux : ∀ l : List Nat, (∀ f ∈ l, f &&& 1023 = f) →
      l.foldl (piStep 1023) (ansUpTo 1022) = ansUpTo 1022 := by
    intro l
    induction l with
    | nil => intro _; rw [List.foldl_nil]
    | cons f t ih =>
      intro hl
      rw [List.foldl_cons, hstep f (hl f (List.mem_cons_self _ _))]
      exact ih fun g hg => hl g (List.mem_cons_of_mem _ hg)
  exact haux (forceSeq 1023) fun f hf => mem_forceSeq_iff.mp hf

/-- No kept pair has all ten `care` bits: `care = 1023` keeps nothing, so
every kept pair has `care ≤ 1022` (at most nine literals). -/
theorem primeImplicants_care_le : ∀ cf ∈ primeImplicants, cf.1 ≤ 1022 := by
  have hsplit : List.range' 1 1023 = List.range' 1 1022 ++ [1023] := by
    have h1 := List.range'_append 1 1022 1 1
    simp only [Nat.one_mul] at h1
    have e1 : 1 + 1022 = 1023 := by norm_num
    have e2 : 1 + 1022 = 1023 := by norm_num
    rw [e1] at h1
    rw [← h1, List.range'_one]
  have heq : primeImplicants = ansUpTo 1022 := by
    rw [primeImplicants, hsplit, List.foldl_append, List.foldl_cons, List.foldl_nil]
    exact piCare_1023_id
  intro cf hcf
  rw [heq] at hcf
  refine foldl_piCare_careBound (List.range' 1 1022) ?_ [] (by simp) cf hcf
  intro c hc
  rw [List.mem_range'_1] at hc
  omega

set_option maxRecDepth 100000 in
/-- Every kept pair selects at most nine of the ten bit positions. -/
theorem primeImplicants_careBits_le : ∀ cf ∈ primeImplicants,
    (List.range 10).countP (fun bit => decide (cf.1 &&& (1 <<< bit) ≠ 0)) ≤ 9 := by
  have hval : ∀ c : Nat, c < 1023 →
      (List.range 10).countP (fun bit => decide (c &&& (1 <<< bit) ≠ 0)) ≤ 9 := by decide
  intro cf hcf
  exact hval cf.1 (by have := primeImplicants_care_le cf hcf; omega)

/-! ## Claim C1 : the single-transition patch -/

/-- The ten-cell array of the single-transition patch: neighbourhood ids
`2 … 10` (bit 4 = centre) and output id `11`. -/
def tenFree : List Int := [2, 3, 4, 5, 6, 7, 8, 9, 10, 11]

/-- The literal emitted for a free cell at bit position `bit`:
`±(var − 1)` with the sign given by the force bit, and `var = bit + 2`. -/
def litAt (force bit : Nat) : Int :=
  (if force &&& (1 <<< bit) ≠ 0 then 1 else -1) * ((bit : Int) + 1)

theorem litAt_natAbs (force bit : Nat) : (litAt force bit).natAbs = bit + 1 := by
  unfold litAt
  split <;> simp <;> omega

theorem tenFree_getD : ∀ bit, bit < 10 → tenFree.getD bit 0 = (bit : Int) + 2 := by decide

theorem except_ok_bind {α β : Type} (a : α) (f : α → Except String β) :
    ((Except.ok a : Except String α) >>= f) = f a := rfl

theorem perm_any {l l2 : List Int} (p : Int → Bool) (h : l.Perm l2) :
    l.any p = l2.any p := by
  cases hh : l.any p
  · cases hh2 : l2.any p
    · rfl
    · exfalso
      rw [List.any_eq_true] at hh2
      obtain ⟨x, hx, hp⟩ := hh2
      rw [List.any_eq_false] at hh
      exact absurd hp (by simpa using hh x (h.mem_iff.mpr hx))
  · rw [List.any_eq_true] at hh
    obtain ⟨x, hx, hp⟩ := hh
    rw [eq_comm, List.any_eq_true]
    exact ⟨x, h.mem_iff.mp hx, hp⟩

/-- On the all-free ten-cell array the bit loop never satisfies the clause,
never hits a tautology, and appends exactly one literal per selected bit. -/
theorem emitBits_free (care force : Nat) : ∀ (bits : List Nat) (b : ClauseBuilder),
    (∀ bit ∈ bits, bit < 10) → bits.Nodup →
    b.tautology = false →
    (∀ l ∈ b.lits, ∃ m, m < 10 ∧ m ∉ bits ∧ l.natAbs = m + 1) →
    b.lits.length + bits.countP (fun bit => decide (care &&& (1 <<< bit) ≠ 0)) ≤ 9 →
    emitBits tenFree care force bits b =
      .ok (⟨b.lits ++ (bits.filter
            (fun bit => decide (care &&& (1 <<< bit) ≠ 0))).map (litAt force),
            false⟩, false) := by
  intro bits
  induction bits with
  | nil =>
    intro b _ _ htaut _ _
    simp only [emitBits, List.filter_nil, List.map_nil, List.append_nil]
    cases b with
    | mk lits taut =>
      simp only at htaut
      rw [htaut]
  | cons bit rest ih =>
    intro b hlt hnodup htaut hmag hbudget
    have hbit10 : bit < 10 := hlt bit (List.mem_cons_self _ _)
    rw [emitBits]
    by_cases hcare : care &&& (1 <<< bit) ≠ 0
    · rw [if_pos hcare]
      rw [tenFree_getD bit hbit10]
      have hge : ¬ ((bit : Int) + 2 < 2) := by omega
      rw [if_neg hge]
      -- the add cannot find a complementary literal
      have hnotmem : b.lits.contains (-((if force &&& (1 <<< bit) ≠ 0 then (1 : Int) else -1) * ((bit : Int) + 2 - 1))) = false := by
        rw [Bool.eq_false_iff]
        intro hcontains
        have hmem := List.elem_iff.mp hcontains
        obtain ⟨m, hm10, hmnot, hmabs⟩ := hmag _ hmem
        have : m + 1 = bit + 1 := by
          rw [← hmabs]
          split <;> simp <;> omega
        have : m = bit := by omega
        subst this
        exact hmnot (List.mem_cons_self _ _)
      have hlen : ¬ (9 ≤ b.lits.length) := by
        have hcount : rest.countP (fun bit => decide (care &&& (1 <<< bit) ≠ 0)) +
            1 = (bit :: rest).countP (fun bit => decide (care &&& (1 <<< bit) ≠ 0)) := by
          rw [List.countP_cons]
          simp [hcare]
        omega
      unfold ClauseBuilder.add
      rw [htaut]
      simp only [Bool.false_eq_true, if_false, hnotmem, if_neg hlen]
      rw [except_ok_bind]
      simp only [Bool.false_eq_true, if_false]
      have hstep := ih ⟨b.lits ++ [(if force &&& (1 <<< bit) ≠ 0 then (1 : Int) else -1) * ((bit : Int) + 2 - 1)], false⟩
        (fun g hg => hlt g (List.mem_cons_of_mem _ hg))
        (List.nodup_cons.mp hnodup).2
        rfl
        ?_ ?_
      · rw [hstep]
        have hfilter : (bit :: rest).filter (fun bit => decide (care &&& (1 <<< bit) ≠ 0)) =
            bit :: rest.filter (fun bit => decide (care &&& (1 <<< bit) ≠ 0)) := by
          rw [List.filter_cons]
          simp [hcare]
        rw [hfilter, List.map_cons]
        have hlit : (if force &&& (1 <<< bit) ≠ 0 then (1 : Int) else -1) * ((bit : Int) + 2 - 1) = litAt force bit := by
          unfold litAt
          ring_nf
        rw [hlit]
        simp
      · intro l hl
        rcases List.mem_append.mp hl with h | h
        · obtain ⟨m, hm10, hmnot, hmabs⟩ := hmag l h
          exact ⟨m, hm10, fun hc => hmnot (List.mem_cons_of_mem _ hc), hmabs⟩
        · simp only [List.mem_singleton] at h
          subst h
          refine ⟨bit, hbit10, (List.nodup_cons.mp hnodup).1, ?_⟩
          split <;> simp <;> omega
      · have hcount : (bit :: rest).countP (fun bit => decide (care &&& (1 <<< bit) ≠ 0)) =
            rest.countP (fun bit => decide (care &&& (1 <<< bit) ≠ 0)) + 1 := by
          rw [List.countP_cons]
          simp [hcare]
        simp only [List.length_append, List.length_cons, List.length_nil]
        omega
    · rw [if_neg hcare]
      have hstep := ih b (fun g hg => hlt g (List.mem_cons_of_mem _ hg))
        (List.nodup_cons.mp hnodup).2 htaut
        (fun l hl => (hmag l hl).imp fun m hm => ⟨hm.1, fun hc => hm.2.1 (List.mem_cons_of_mem _ hc), hm.2.2⟩)
        ?_
      · rw [hstep]
        have hfilter : (bit :: rest).filter (fun bit => decide (care &&& (1 <<< bit) ≠ 0)) =
            rest.filter (fun bit => decide (care &&& (1 <<< bit) ≠ 0)) := by
          rw [List.filter_cons]
          simp [hcare]
        rw [hfilter]
      · have hcount : (bit :: rest).countP (fun bit => decide (care &&& (1 <<< bit) ≠ 0)) =
            rest.countP (fun bit => decide (care &&& (1 <<< bit) ≠ 0)) := by
          rw [List.countP_cons]
          simp [hcare]
        omega

/-- The clause emitted for pair `cf` on the all-free ten-cell array. -/
def clauseFor (cf : Nat × Nat) : Clause :=
  ClauseBuilder.get
    ⟨((List.range 10).filter
        (fun bit => decide (cf.1 &&& (1 <<< bit) ≠ 0))).map (litAt cf.2), false⟩

theorem emitClause_free (cf : Nat × Nat) (hgood : goodPI cf)
    (hbits : (List.range 10).countP (fun bit => decide (cf.1 &&& (1 <<< bit) ≠ 0)) ≤ 9) :
    emitClause tenFree cf = .ok (some (clauseFor cf)) := by
  obtain ⟨-, -, hc1, hclt⟩ := hgood
  have hrun := emitBits_free cf.1 cf.2 (List.range 10) ClauseBuilder.init
    (fun bit hb => List.mem_range.mp hb) (List.nodup_range 10) rfl
    (by intro l hl; simp [ClauseBuilder.init] at hl)
    (by simpa [ClauseBuilder.init] using hbits)
  unfold emitClause
  rw [hrun, except_ok_bind]
  have hne : ((List.range 10).filter
      (fun bit => decide (cf.1 &&& (1 <<< bit) ≠ 0))).map (litAt cf.2) ≠ [] := by
    obtain ⟨i, hbit, hgt⟩ := Nat.exists_most_significant_bit (show cf.1 ≠ 0 by omega)
    have hi10 : i < 10 := by
      by_contra hi
      have hfb : cf.1.testBit i = false := by
        apply Nat.testBit_eq_false_of_lt
        calc cf.1 < 1024 := hclt
          _ = 2 ^ 10 := by norm_num
          _ ≤ 2 ^ i := Nat.pow_le_pow_right (by norm_num) (by omega)
      rw [hbit] at hfb
      exact absurd hfb (by simp)
    intro hnil
    rw [List.map_eq_nil_iff] at hnil
    have hmem : i ∈ (List.range 10).filter (fun bit => decide (cf.1 &&& (1 <<< bit) ≠ 0)) := by
      rw [List.mem_filter]
      refine ⟨List.mem_range.mpr hi10, ?_⟩
      simp only [decide_eq_true_eq]
      exact (and_shift_ne_iff cf.1 i).mpr hbit
    rw [hnil] at hmem
    simp at hmem
  have hempty : ClauseBuilder.isEmpty ⟨ClauseBuilder.init.lits ++ ((List.range 10).filter
      (fun bit => decide (cf.1 &&& (1 <<< bit) ≠ 0))).map (litAt cf.2), false⟩ = false := by
    simp only [ClauseBuilder.isEmpty, ClauseBuilder.init, List.nil_append]
    cases h : ((List.range 10).filter
        (fun bit => decide (cf.1 &&& (1 <<< bit) ≠ 0))).map (litAt cf.2) with
    | nil => exact absurd h hne
    | cons a t => rfl
  simp only [Bool.not_false, Bool.true_and, hempty]
  simp only [clauseFor, ClauseBuilder.get, ClauseBuilder.init, List.nil_append,
    List.length_map]
  rfl

/-- The fold over the prime-implicant table on the all-free array collects
exactly one clause per kept pair. -/
theorem transitionClauses_free :
    transitionClauses tenFree = .ok (primeImplicants.map clauseFor) := by
  have haux : ∀ (l : List (Nat × Nat)),
      (∀ cf ∈ l, emitClause tenFree cf = .ok (some (clauseFor cf))) →
      ∀ acc : ClauseList,
      l.foldlM (fun acc cf => do
          match ← emitClause tenFree cf with
          | some cl => return acc ++ [cl]
          | none => return acc) acc = .ok (acc ++ l.map clauseFor) := by
    intro l
    induction l with
    | nil =>
      intro _ acc
      rw [List.foldlM_nil, List.map_nil, List.append_nil]
      rfl
    | cons cf t ih =>
      intro hl acc
      rw [List.foldlM_cons, hl cf (List.mem_cons_self _ _)]
      have hbind : ∀ (r : Option Clause) (g : Option Clause → Except String ClauseList),
          ((Except.ok r : Except String (Option Clause)) >>= g) = g r :=
        fun r g => rfl
      rw [hbind]
      show (t.foldlM _ (acc ++ [clauseFor cf])) = _
      rw [ih (fun g hg => hl g (List.mem_cons_of_mem _ hg)) (acc ++ [clauseFor cf])]
      simp
  have hall : ∀ cf ∈ primeImplicants, emitClause tenFree cf = .ok (some (clauseFor cf)) :=
    fun cf hcf => emitClause_free cf (primeImplicants_good cf hcf)
      (primeImplicants_careBits_le cf hcf)
  have h2 := haux primeImplicants hall []
  rw [List.nil_append] at h2
  exact h2

/-! ### Satisfaction semantics (as checked by the spec's enumeration test) -/

def satisfiesLit (assignment : Nat → Bool) (lit : Int) : Bool :=
  if 0 < lit then assignment lit.toNat
  else if lit < 0 then !assignment (-lit).toNat
  else false

def satisfiesClause (assignment : Nat → Bool) (cl : Clause) : Bool :=
  cl.any (satisfiesLit assignment)

def satisfiesAll (assignment : Nat → Bool) (cls : ClauseList) : Bool :=
  cls.all (satisfiesClause assignment)

/-- The assignment encoding a 10-bit word: DIMACS variable `v` (1-based)
holds bit `v − 1` of the word. -/
def assignOf (w : Nat) : Nat → Bool := fun v => w.testBit (v - 1)

theorem satisfiesLit_litAt (w force bit : Nat) :
    satisfiesLit (assignOf w) (litAt force bit) =
      (w.testBit bit == decide (force &&& (1 <<< bit) ≠ 0)) := by
  by_cases hf : force &&& (1 <<< bit) ≠ 0
  · have h1 : litAt force bit = (bit : Int) + 1 := by
      unfold litAt
      rw [if_pos hf]
      ring
    rw [h1]
    unfold satisfiesLit assignOf
    rw [if_pos (show (0 : Int) < (bit : Int) + 1 by omega)]
    have h2 : ((bit : Int) + 1).toNat = bit + 1 := by omega
    rw [h2]
    simp [hf]
  · have h1 : litAt force bit = -((bit : Int) + 1) := by
      unfold litAt
      rw [if_neg hf]
      ring
    rw [h1]
    unfold satisfiesLit assignOf
    rw [if_neg (show ¬ ((0 : Int) < -((bit : Int) + 1)) by omega)]
    rw [if_pos (show (-((bit : Int) + 1)) < 0 by omega)]
    have h2 : (-(-((bit : Int) + 1))).toNat = bit + 1 := by omega
    rw [h2]
    simp [hf]

theorem any_replicate_zero (a : Nat → Bool) (n : Nat) :
    (List.replicate n (0 : Int)).any (satisfiesLit a) = false := by
  induction n with
  | zero => rfl
  | succ k ih =>
    rw [List.replicate_succ, List.any_cons, ih]
    simp [satisfiesLit]

theorem any_map_lits {α β : Type} (l : List α) (f : α → β) (p : β → Bool) :
    (l.map f).any p = l.any (fun x => p (f x)) := by
  induction l with
  | nil => rfl
  | cons a t ih => simp [List.any_cons, ih]

/-- The emitted clause for `cf` is falsified by the assignment of `w`
exactly when `w` matches the pattern the pair forbids. -/
theorem clauseFor_falsified_iff (w : Nat) (cf : Nat × Nat) (hgood : goodPI cf) :
    (satisfiesClause (assignOf w) (clauseFor cf) = false) ↔
      w &&& cf.1 = cf.1 ^^^ cf.2 := by
  obtain ⟨-, hsub, hc1, hclt⟩ := hgood
  unfold satisfiesClause clauseFor ClauseBuilder.get
  dsimp only
  rw [List.any_append, any_replicate_zero]
  rw [perm_any _ (List.mergeSort_perm _ _), Bool.or_false]
  rw [any_map_lits]
  constructor
  · intro hfalse
    rw [List.any_eq_false] at hfalse
    apply Nat.eq_of_testBit_eq
    intro j
    rw [Nat.testBit_and, Nat.testBit_xor]
    by_cases hj10 : j < 10
    · by_cases hcj : cf.1.testBit j = true
      · have hmem : j ∈ (List.range 10).filter
            (fun bit => decide (cf.1 &&& (1 <<< bit) ≠ 0)) := by
          rw [List.mem_filter]
          exact ⟨List.mem_range.mpr hj10, by
            simp only [decide_eq_true_eq]
            exact (and_shift_ne_iff cf.1 j).mpr hcj⟩
        have := hfalse j hmem
        rw [satisfiesLit_litAt] at this
        rw [Bool.not_eq_true] at this
        rw [hcj]
        cases hfj : cf.2.testBit j with
        | false =>
          rw [show decide (cf.2 &&& (1 <<< j) ≠ 0) = false by
            simp only [decide_eq_false_iff_not, Ne, not_not]
            rw [← Bool.not_eq_true, ← and_shift_ne_iff cf.2 j] at hfj
            simpa using hfj] at this
          cases hwj : w.testBit j <;> rw [hwj] at this <;> simp_all
        | true =>
          rw [show decide (cf.2 &&& (1 <<< j) ≠ 0) = true by
            simp only [decide_eq_true_eq]
            exact (and_shift_ne_iff cf.2 j).mpr hfj] at this
          cases hwj : w.testBit j <;> rw [hwj] at this <;> simp_all
      · rw [Bool.not_eq_true] at hcj
        have hfj : cf.2.testBit j = false := by
          cases hfj : cf.2.testBit j with
          | false => rfl
          | true =>
            have := testBit_of_subset hsub hfj
            rw [hcj] at this
            exact absurd this (by simp)
        rw [hcj, hfj]
        simp
    · have hcj : cf.1.testBit j = false := by
        apply Nat.testBit_eq_false_of_lt
        calc cf.1 < 1024 := hclt
          _ = 2 ^ 10 := by norm_num
          _ ≤ 2 ^ j := Nat.pow_le_pow_right (by norm_num) (by omega)
      have hfj : cf.2.testBit j = false := by
        cases hfj : cf.2.testBit j with
        | false => rfl
        | true =>
          have := testBit_of_subset hsub hfj
          rw [hcj] at this
          exact absurd this (by simp)
      rw [hcj, hfj]
      simp
  · intro hcov
    rw [List.any_eq_false]
    intro bit hbit
    rw [List.mem_filter] at hbit
    obtain ⟨hbr, hbc⟩ := hbit
    have hb10 : bit < 10 := List.mem_range.mp hbr
    simp only [decide_eq_true_eq] at hbc
    have hcb : cf.1.testBit bit = true := (and_shift_ne_iff cf.1 bit).mp hbc
    rw [satisfiesLit_litAt]
    have hcovb := congrArg (fun n => n.testBit bit) hcov
    simp only [Nat.testBit_and, Nat.testBit_xor, hcb, Bool.and_true, Bool.true_xor] at hcovb
    cases hfb : cf.2.testBit bit with
    | false =>
      rw [show decide (cf.2 &&& (1 <<< bit) ≠ 0) = false by
        simp only [decide_eq_false_iff_not, Ne, not_not]
        rw [← Bool.not_eq_true, ← and_shift_ne_iff cf.2 bit] at hfb
        simpa using hfb]
      rw [hfb] at hcovb
      simp only [Bool.not_false] at hcovb
      rw [hcovb]
      simp
    | true =>
      rw [show decide (cf.2 &&& (1 <<< bit) ≠ 0) = true by
        simp only [decide_eq_true_eq]
        exact (and_shift_ne_iff cf.2 bit).mpr hfb]
      rw [hfb] at hcovb
      simp only [Bool.not_true] at hcovb
      rw [hcovb]
      simp

/-- The patch clause set is satisfied exactly on the valid B3/S23 points. -/
theorem satisfiesAll_free_iff (w : Nat) (hw : w < 1024) :
    (satisfiesAll (assignOf w) (primeImplicants.map clauseFor) = true) ↔
      lifeTable w = true := by
  unfold satisfiesAll
  constructor
  · intro hall
    cases hlt : lifeTable w with
    | true => rfl
    | false =>
      exfalso
      obtain ⟨ab, habm, hcov⟩ := primeImplicants_complete w hw hlt
      have hfls : satisfiesClause (assignOf w) (clauseFor ab) = false :=
        (clauseFor_falsified_iff w ab (primeImplicants_good ab habm)).mpr hcov
      have := List.all_eq_true.mp hall (clauseFor ab) (List.mem_map_of_mem _ habm)
      rw [hfls] at this
      exact absurd this (by simp)
  · intro hvalid
    rw [List.all_eq_true]
    intro cl hcl
    rw [List.mem_map] at hcl
    obtain ⟨cf, hcf, hrfl⟩ := hcl
    subst hrfl
    cases hsat : satisfiesClause (assignOf w) (clauseFor cf) with
    | true => rfl
    | false =>
      exfalso
      have hcov := (clauseFor_falsified_iff w cf (primeImplicants_good cf hcf)).mp hsat
      obtain ⟨-, hsub, -, hclt⟩ := primeImplicants_good cf hcf
      have hx : (w ^^^ cf.2) &&& cf.1 = cf.1 := by
        rw [Nat.and_xor_distrib_right, hcov, hsub, Nat.xor_assoc, Nat.xor_self,
          Nat.xor_zero]
      have hf2lt : cf.2 < 1024 := by
        have h1 : cf.2 &&& cf.1 ≤ cf.1 := Nat.and_le_right
        rw [hsub] at h1
        omega
      have hxlt : w ^^^ cf.2 < 1024 := by
        have h1 : w < 2 ^ 10 := by omega
        have h2 : cf.2 < 2 ^ 10 := by omega
        have := Nat.xor_lt_two_pow h1 h2
        omega
      have := primeImplicants_sound cf hcf (w ^^^ cf.2) hx hxlt
      rw [Nat.xor_assoc, Nat.xor_self, Nat.xor_zero, hvalid] at this
      exact absurd this (by simp)

/-- The single-transition patch: a `VariablePattern` over a `3 × 3 × 2` box
whose ten patch cells (the nine `t = 0` cells and the centre output) are
free variables, while the eight remaining `t = 1` cells are known dead and
excluded from the transition relation. -/
def patchPattern : VariablePattern :=
  let base := VariablePattern.ofBounds ((0, 2), (0, 2), (0, 1))
  { base with
      cell_list := base.cell_list.map fun c =>
        if c.position.2.2 = 1 ∧ c.position ≠ (1, 1, 1) then
          { c with follows_rules := false, known := true, state := false }
        else c }

def patchBuilt : VariablePattern := patchPattern.build

theorem patch_skip_step : ∀ (p : Point) (acc : ClauseList),
    patchBuilt.follows_rules (p.1, p.2.1, p.2.2 + 1) = false →
    patchBuilt.getClausesStep 2 acc p = .ok acc := by
  intro p acc h
  unfold VariablePattern.getClausesStep
  rw [h]
  rfl

theorem patch_center_step :
    patchBuilt.getClausesStep 2 [] ((1 : Int), (1 : Int), (0 : Int)) =
      .ok (primeImplicants.map clauseFor) := by
  unfold VariablePattern.getClausesStep
  dsimp only
  have hf : patchBuilt.follows_rules (1, 1, (0 : Int) + 1) = true := by decide
  rw [hf]
  have hten : patchBuilt.ten_cells_at 2 1 1 0 = tenFree := by decide
  rw [if_pos rfl, hten, transitionClauses_free, except_ok_bind]
  rw [List.nil_append]
  rfl

theorem patch_get_clauses :
    patchBuilt.get_clauses 2 = .ok (primeImplicants.map clauseFor) := by
  have hpos : ((intRange patchBuilt.bounds.2.2.1 (patchBuilt.bounds.2.2.2 - 1)).flatMap fun t =>
      (intRange patchBuilt.bounds.2.1.1 patchBuilt.bounds.2.1.2).flatMap fun y =>
        (intRange patchBuilt.bounds.1.1 patchBuilt.bounds.1.2).map fun x => ((x, y, t) : Point)) =
      [((0 : Int), (0 : Int), (0 : Int)), (1, 0, 0), (2, 0, 0), (0, 1, 0), (1, 1, 0),
       (2, 1, 0), (0, 2, 0), (1, 2, 0), (2, 2, 0)] := by decide
  rw [VariablePattern.get_clauses, hpos]
  rw [List.foldlM_cons, patch_skip_step _ _ (by decide), except_ok_bind]
  rw [List.foldlM_cons, patch_skip_step _ _ (by decide), except_ok_bind]
  rw [List.foldlM_cons, patch_skip_step _ _ (by decide), except_ok_bind]
  rw [List.foldlM_cons, patch_skip_step _ _ (by decide), except_ok_bind]
  rw [List.foldlM_cons, patch_center_step, except_ok_bind]
  rw [List.foldlM_cons, patch_skip_step _ _ (by decide), except_ok_bind]
  rw [List.foldlM_cons, patch_skip_step _ _ (by decide), except_ok_bind]
  rw [List.foldlM_cons, patch_skip_step _ _ (by decide), except_ok_bind]
  rw [List.foldlM_cons, patch_skip_step _ _ (by decide), except_ok_bind]
  rw [List.foldlM_nil]
  rfl

/-- Spec-side count of the eight non-centre neighbours that are alive, over the
ten-bit assignment `w` (bits 0–8 the `3 × 3` neighbourhood, bit 4 the centre). -/
def neighborCountSpec (w : Nat) : Nat :=
  ((List.range 9).filter fun i => decide (i ≠ 4) && w.testBit i).length

/-- Spec-side B3/S23 transition: output alive iff the neighbour count is 3,
or the centre is alive and the count is 2. -/
def b3s23OutSpec (w : Nat) : Bool :=
  (neighborCountSpec w == 3) || (w.testBit 4 && (neighborCountSpec w == 2))

set_option maxRecDepth 10000 in
theorem lifeTable_eq_spec : ∀ w : Nat, w < 1024 →
    (lifeTable w = true ↔ Nat.testBit w 9 = b3s23OutSpec w) := by decide

set_option maxRecDepth 40000 in
theorem valid_count_512 :
    ((List.range 1024).filter fun w => Nat.testBit w 9 == b3s23OutSpec w).length = 512 := by
  decide

set_option maxRecDepth 40000 in
theorem invalid_count_512 :
    ((List.range 1024).filter fun w => !(Nat.testBit w 9 == b3s23OutSpec w)).length = 512 := by
  decide

/-- Claim C1: for the single-transition patch pattern (nine free neighbourhood
cells at `t = 0` and one free output cell at `t = 1`, no symmetry groups),
`get_clauses` returns exactly the clauses of the prime-implicant table over
variables 1–10, and that clause set is satisfied by precisely the 512 ten-bit
assignments whose output bit equals the B3/S23 transition of the neighbourhood,
and falsified by the other 512. -/
theorem c1_patch_clauses_characterize_b3s23 :
    patchBuilt.get_clauses 2 = Except.ok (primeImplicants.map clauseFor) ∧
    (∀ w : Nat, w < 1024 →
      (satisfiesAll (assignOf w) (primeImplicants.map clauseFor) = true ↔
        Nat.testBit w 9 = b3s23OutSpec w)) ∧
    ((List.range 1024).filter fun w => Nat.testBit w 9 == b3s23OutSpec w).length = 512 ∧
    ((List.range 1024).filter fun w => !(Nat.testBit w 9 == b3s23OutSpec w)).length = 512 := by
  refine ⟨patch_get_clauses, ?_, valid_count_512, invalid_count_512⟩
  intro w hw
  rw [satisfiesAll_free_iff w hw]
  exact lifeTable_eq_spec w hw

/-- Witness for C1 at the concrete assignment 7: three live neighbourhood cells
(bits 0–2), dead centre, dead output. -/
theorem c1_witness :
    patchBuilt.get_clauses 2 = Except.ok (primeImplicants.map clauseFor) ∧
    (satisfiesAll (assignOf 7) (primeImplicants.map clauseFor) = true ↔
      Nat.testBit 7 9 = b3s23OutSpec 7) :=
  ⟨c1_patch_clauses_characterize_b3s23.1,
   c1_patch_clauses_characterize_b3s23.2.1 7 (by decide)⟩
/-! ## Claim C10 : out-of-bounds mutators are silent no-ops -/

theorem cell_index_none_of_not_contains (vp : VariablePattern) (p : Point)
    (h : vp.contains p = false) : vp.cell_index p = none := by
  unfold VariablePattern.contains in_limits at h
  unfold VariablePattern.cell_index
  simp only [decide_eq_false_iff_not, not_and_or, not_le] at h
  unfold VariablePattern.sz_x VariablePattern.sz_y VariablePattern.sz_t
    VariablePattern.x_min VariablePattern.y_min VariablePattern.t_min
  rw [if_pos]
  omega

/-- Claim C10: for a point outside the pattern's bounds, `set_known`,
`set_dead`, `set_alive` and `set_cell_group` all return the pattern unchanged:
no cell is modified, no error is raised, and `is_built` keeps its value. -/
theorem c10_out_of_bounds_setters_are_noops (vp : VariablePattern) (p : Point)
    (h : vp.contains p = false) (state : Bool) (group_idx : Int) :
    vp.set_known p state = vp ∧ vp.set_dead p = vp ∧ vp.set_alive p = vp ∧
      vp.set_cell_group p group_idx = vp := by
  have hidx := cell_index_none_of_not_contains vp p h
  have hk : ∀ s : Bool, vp.set_known p s = vp := by
    intro s
    unfold VariablePattern.set_known
    rw [hidx]
  refine ⟨hk state, hk false, hk true, ?_⟩
  unfold VariablePattern.set_cell_group
  rw [hidx]

/-- Witness for C10: the point `(5, 0, 0)` lies outside the `2 × 1 × 1`
pattern, and all four mutators leave the pattern unchanged there. -/
theorem c10_witness :
    (VariablePattern.ofSize 2 1 0).set_known (5, 0, 0) true =
        VariablePattern.ofSize 2 1 0 ∧
      (VariablePattern.ofSize 2 1 0).set_dead (5, 0, 0) =
        VariablePattern.ofSize 2 1 0 ∧
      (VariablePattern.ofSize 2 1 0).set_alive (5, 0, 0) =
        VariablePattern.ofSize 2 1 0 ∧
      (VariablePattern.ofSize 2 1 0).set_cell_group (5, 0, 0) 0 =
        VariablePattern.ofSize 2 1 0 :=
  c10_out_of_bounds_setters_are_noops (VariablePattern.ofSize 2 1 0) (5, 0, 0)
    (by decide) true 0

/-! ## Claim C7 : find_all_images -/

theorem mem_intRange (lo hi z : Int) : z ∈ intRange lo hi ↔ lo ≤ z ∧ z ≤ hi := by
  unfold intRange
  rw [List.mem_map]
  constructor
  · rintro ⟨i, hi', rfl⟩
    rw [List.mem_range] at hi'
    omega
  · rintro ⟨h1, h2⟩
    refine ⟨(z - lo).toNat, ?_, ?_⟩
    · rw [List.mem_range]
      omega
    · omega

theorem intRange_nodup (lo hi : Int) : (intRange lo hi).Nodup := by
  unfold intRange
  refine List.Nodup.map ?_ (List.nodup_range _)
  intro a b h
  have h2 : (a : Int) = b := by
    have h3 : lo + (a : Int) = lo + b := h
    omega
  exact_mod_cast h2

theorem intRange_length (lo hi : Int) : (intRange lo hi).length = (hi + 1 - lo).toNat := by
  unfold intRange
  rw [List.length_map, List.length_range]

/-- The list of all points inside `bounds`. -/
def boundsList (b : Bounds) : List Point :=
  (intRange b.1.1 b.1.2).flatMap fun x =>
    (intRange b.2.1.1 b.2.1.2).flatMap fun y =>
      (intRange b.2.2.1 b.2.2.2).map fun t => ((x, y, t) : Point)

theorem mem_boundsList (b : Bounds) (q : Point) :
    q ∈ boundsList b ↔ in_limits q b = true := by
  unfold boundsList in_limits
  simp only [List.mem_flatMap, List.mem_map, mem_intRange, decide_eq_true_eq]
  obtain ⟨x, y, t⟩ := q
  constructor
  · rintro ⟨a, ⟨h1, h2⟩, c, ⟨h3, h4⟩, d, ⟨h5, h6⟩, he⟩
    injection he with e1 e2
    injection e2 with e2 e3
    subst e1; subst e2; subst e3
    exact ⟨h1, h2, h3, h4, h5, h6⟩
  · rintro ⟨h1, h2, h3, h4, h5, h6⟩
    exact ⟨x, ⟨h1, h2⟩, y, ⟨h3, h4⟩, t, ⟨h5, h6⟩, rfl⟩

theorem boundsList_nodup (b : Bounds) : (boundsList b).Nodup := by
  unfold boundsList
  refine List.nodup_flatMap.2 ⟨?_, ?_⟩
  · intro x hx
    refine List.nodup_flatMap.2 ⟨?_, ?_⟩
    · intro y hy
      refine List.Nodup.map ?_ (intRange_nodup _ _)
      intro a c h
      simpa using h
    · refine (intRange_nodup _ _).imp ?_
      intro a c hne q hqa hqc
      simp only [List.mem_map] at hqa hqc
      obtain ⟨t1, _, rfl⟩ := hqa
      obtain ⟨t2, _, he⟩ := hqc
      injection he with e1 e2
      injection e2 with e2 e3
      exact hne (by rw [e2])
  · refine (intRange_nodup _ _).imp ?_
    intro a c hne q hqa hqc
    simp only [List.mem_flatMap, List.mem_map] at hqa hqc
    obtain ⟨y1, _, t1, _, rfl⟩ := hqa
    obtain ⟨y2, _, t2, _, he⟩ := hqc
    injection he with e1 e2
    exact hne (by rw [e1])

theorem boundsList_length (b : Bounds) : (boundsList b).length = boundsSize b := by
  unfold boundsList boundsSize
  rw [List.length_flatMap]
  have hinner : ∀ x : Int,
      ((intRange b.2.1.1 b.2.1.2).flatMap fun y =>
        (intRange b.2.2.1 b.2.2.2).map fun t => ((x, y, t) : Point)).length =
      (b.2.1.2 + 1 - b.2.1.1).toNat * (b.2.2.2 + 1 - b.2.2.1).toNat := by
    intro x
    rw [List.length_flatMap]
    rw [List.sum_eq_card_nsmul _ ((b.2.2.2 + 1 - b.2.2.1).toNat)]
    · rw [List.length_map, intRange_length, smul_eq_mul]
    · intro l hl
      simp only [List.mem_map, Function.comp] at hl
      obtain ⟨y, hy, rfl⟩ := hl
      rw [List.length_map, intRange_length]
  rw [List.sum_eq_card_nsmul _ ((b.2.1.2 + 1 - b.2.1.1).toNat * (b.2.2.2 + 1 - b.2.2.1).toNat)]
  · rw [List.length_map, intRange_length, smul_eq_mul, Nat.mul_assoc]
  · intro l hl
    simp only [List.mem_map, Function.comp] at hl
    obtain ⟨x, hx, rfl⟩ := hl
    exact hinner x

/-- The Finset of all in-bounds points. -/
def boundsFinset (b : Bounds) : Finset Point := (boundsList b).toFinset

theorem mem_boundsFinset (b : Bounds) (q : Point) :
    q ∈ boundsFinset b ↔ in_limits q b = true := by
  rw [boundsFinset, List.mem_toFinset, mem_boundsList]

theorem boundsFinset_card (b : Bounds) : (boundsFinset b).card = boundsSize b := by
  rw [boundsFinset, List.toFinset_card_of_nodup (boundsList_nodup b), boundsList_length]

theorem mem_find_new_images (pts : Finset Point) (ts : List AffineTransf)
    (b : Bounds) (q : Point) :
    q ∈ find_new_images pts ts b ↔
      (∃ r ∈ pts, ∃ t ∈ ts, q = transform t r) ∧ q ∉ pts ∧ in_limits q b = true := by
  unfold find_new_images
  simp only [Finset.mem_biUnion, Finset.mem_filter, List.mem_toFinset, List.mem_map]
  constructor
  · rintro ⟨r, hr, ⟨t, ht, rfl⟩, hq1, hq2⟩
    exact ⟨⟨r, hr, t, ht, rfl⟩, hq1, hq2⟩
  · rintro ⟨⟨r, hr, t, ht, rfl⟩, hq1, hq2⟩
    exact ⟨r, hr, ⟨t, ht, rfl⟩, hq1, hq2⟩

/-- Reachability from `p` by transform steps whose every intermediate image is
in bounds (the starting point `p` itself need not be). -/
inductive ReachIB (ts : List AffineTransf) (b : Bounds) (p : Point) : Point → Prop
  | base : ReachIB ts b p p
  | step (q : Point) (t : AffineTransf) : ReachIB ts b p q → t ∈ ts →
      in_limits (transform t q) b = true → ReachIB ts b p (transform t q)

theorem subset_findAllImagesAux (ts : List AffineTransf) (b : Bounds) :
    ∀ (fuel : Nat) (images : Finset Point),
      images ⊆ findAllImagesAux ts b fuel images := by
  intro fuel
  induction fuel with
  | zero => intro images; exact Finset.Subset.refl _
  | succ n ih =>
    intro images
    rw [findAllImagesAux]
    by_cases h : find_new_images images ts b = ∅
    · rw [if_pos h]
    · rw [if_neg h]
      exact (Finset.subset_union_left).trans (ih _)

theorem findAllImagesAux_reach (ts : List AffineTransf) (b : Bounds) (p : Point) :
    ∀ (fuel : Nat) (images : Finset Point),
      (∀ q ∈ images, ReachIB ts b p q) →
      ∀ q ∈ findAllImagesAux ts b fuel images, ReachIB ts b p q := by
  intro fuel
  induction fuel with
  | zero => intro images h; exact h
  | succ n ih =>
    intro images h
    rw [findAllImagesAux]
    by_cases hemp : find_new_images images ts b = ∅
    · rw [if_pos hemp]; exact h
    · rw [if_neg hemp]
      refine ih _ ?_
      intro q hq
      rcases Finset.mem_union.mp hq with hq | hq
      · exact h q hq
      · obtain ⟨⟨r, hr, t, ht, rfl⟩, _, hlim⟩ := (mem_find_new_images _ _ _ _).mp hq
        exact ReachIB.step r t (h r hr) ht hlim

theorem findAllImagesAux_fixpoint (ts : List AffineTransf) (b : Bounds) :
    ∀ (fuel : Nat) (images : Finset Point),
      boundsSize b ≤ (images.filter fun q => in_limits q b = true).card + fuel →
      find_new_images (findAllImagesAux ts b fuel images) ts b = ∅ := by
  intro fuel
  induction fuel with
  | zero =>
    intro images h
    rw [Nat.add_zero] at h
    rw [findAllImagesAux]
    have hsub : (images.filter fun q => in_limits q b = true) ⊆ boundsFinset b := by
      intro q hq
      rw [mem_boundsFinset]
      exact (Finset.mem_filter.mp hq).2
    have heq : (images.filter fun q => in_limits q b = true) = boundsFinset b :=
      Finset.eq_of_subset_of_card_le hsub (by rw [boundsFinset_card]; exact h)
    rw [Finset.eq_empty_iff_forall_not_mem]
    intro q hq
    obtain ⟨_, hnot, hlim⟩ := (mem_find_new_images _ _ _ _).mp hq
    have : q ∈ boundsFinset b := (mem_boundsFinset b q).mpr hlim
    rw [← heq] at this
    exact hnot (Finset.mem_filter.mp this).1
  | succ n ih =>
    intro images h
    rw [findAllImagesAux]
    by_cases hemp : find_new_images images ts b = ∅
    · rw [if_pos hemp]; exact hemp
    · rw [if_neg hemp]
      refine ih _ ?_
      obtain ⟨x, hx⟩ := Finset.nonempty_iff_ne_empty.mpr hemp
      obtain ⟨_, hxnot, hxlim⟩ := (mem_find_new_images _ _ _ _).mp hx
      have hcard : ((images ∪ find_new_images images ts b).filter
            fun q => in_limits q b = true).card ≥
          (images.filter fun q => in_limits q b = true).card + 1 := by
        have hsub : insert x (images.filter fun q => in_limits q b = true) ⊆
            (images ∪ find_new_images images ts b).filter fun q => in_limits q b = true := by
          intro q hq
          rcases Finset.mem_insert.mp hq with rfl | hq
          · exact Finset.mem_filter.mpr ⟨Finset.mem_union_right _ hx, hxlim⟩
          · obtain ⟨hq1, hq2⟩ := Finset.mem_filter.mp hq
            exact Finset.mem_filter.mpr ⟨Finset.mem_union_left _ hq1, hq2⟩
        calc (images.filter fun q => in_limits q b = true).card + 1
            = (insert x (images.filter fun q => in_limits q b = true)).card := by
              rw [Finset.card_insert_of_not_mem]
              intro hmem
              exact hxnot (Finset.mem_filter.mp hmem).1
          _ ≤ _ := Finset.card_le_card hsub
      omega

/-- The orbit of `p` under the monoid generated by the transforms (the spec's
notion: identity included, no bounds restriction on intermediate points). -/
inductive Orbit (ts : List AffineTransf) (p : Point) : Point → Prop
  | base : Orbit ts p p
  | step (q : Point) (t : AffineTransf) : Orbit ts p q → t ∈ ts →
      Orbit ts p (transform t q)

/-- Claim C7 (amended): `find_all_images p ts b` is exactly the set of points
reachable from `p` by transform steps all of whose images stay in bounds —
including `p` itself even when `p` is out of bounds. -/
theorem c7_find_all_images_eq_inbounds_closure (p : Point)
    (ts : List AffineTransf) (b : Bounds) (q : Point) :
    q ∈ find_all_images p ts b ↔ ReachIB ts b p q := by
  constructor
  · intro hq
    refine findAllImagesAux_reach ts b p _ {p} ?_ q hq
    intro r hr
    rw [Finset.mem_singleton] at hr
    subst hr
    exact ReachIB.base
  · intro hreach
    induction hreach with
    | base => exact subset_findAllImagesAux ts b _ {p} (Finset.mem_singleton_self p)
    | step r t hr ht hlim ih =>
      by_contra hnot
      have hfix := findAllImagesAux_fixpoint ts b (boundsSize b + 1) {p} (by omega)
      have hmem : transform t r ∈ find_new_images (find_all_images p ts b) ts b := by
        rw [mem_find_new_images]
        exact ⟨⟨r, ih, t, ht, rfl⟩, hnot, hlim⟩
      rw [find_all_images] at hmem
      rw [hfix] at hmem
      exact Finset.not_mem_empty _ hmem

/-- Counterexample to C7 as stated: for an out-of-bounds starting point and no
transforms, the orbit-intersect-bounds set of the spec is empty (the orbit is
just `p`, which is out of bounds), yet `find_all_images` returns a set
containing `p`. -/
theorem c7_counterexample :
    ((5, 0, 0) : Point) ∈ find_all_images (5, 0, 0) [] ((0, 1), (0, 1), (0, 1)) ∧
      ¬ (Orbit [] (5, 0, 0) ((5, 0, 0) : Point) ∧
          in_limits ((5, 0, 0) : Point) ((0, 1), (0, 1), (0, 1)) = true) := by
  constructor
  · decide
  · intro h
    exact absurd h.2 (by decide)

/-! ## known_pattern.hpp / known_pattern.cpp : fully-determined patterns -/

/-- `KnownPattern`: a fully-determined pattern of live cells. -/
structure KnownPattern where
  on_cells : Finset Point
  bounds : Bounds
  shift : Point

namespace KnownPattern

def get_state (kp : KnownPattern) (p : Point) : Bool :=
  decide ((p - kp.shift) ∈ kp.on_cells)

/-- State of the RLE parser loop: current coordinates, running maximum of the
`x` coordinate, the pending repeat count and the live cells inserted so far.
(The C++ `max_y` variable is never read and is omitted.) -/
structure RLESt where
  x : Int
  y : Int
  max_x : Int
  count : Int
  on_cells : Finset Point

/-- The inner `for(j)` loop of the `'o'` case: insert `count` cells starting
at `x`, updating `max_x` and advancing `x`. -/
def insertRun : Nat → Int → Int → Int → Finset Point → Int × Int × Finset Point
  | 0, x, _, max_x, cells => (x, max_x, cells)
  | j + 1, x, y, max_x, cells =>
    insertRun j (x + 1) y (if x > max_x then x else max_x) (insert ((x, y, 0) : Point) cells)

/-- The RLE parsing loop.  Fuel bounds the number of iterations (each
iteration consumes at least one character, so the character count suffices).
On `'x'`/`'#'` the rest of the line is skipped and, as in the source, the
pending count is reset; on `'!'` the loop breaks. -/
def parseRLEAux : Nat → List Char → RLESt → RLESt
  | 0, _, st => st
  | _ + 1, [], st => st
  | fuel + 1, c :: rest, st =>
    if c = 'x' ∨ c = '#' then
      parseRLEAux fuel (((c :: rest).dropWhile fun ch => ch ≠ '\n').drop 1)
        { st with count := 0 }
    else if '0' ≤ c ∧ c ≤ '9' then
      parseRLEAux fuel rest
        { st with count := st.count * 10 + ((c.toNat : Int) - ('0'.toNat : Int)) }
    else
      let count := if st.count = 0 then 1 else st.count
      if c = 'b' then
        parseRLEAux fuel rest { st with x := st.x + count, count := 0 }
      else if c = 'o' then
        let r := insertRun count.toNat st.x st.y st.max_x st.on_cells
        parseRLEAux fuel rest
          { st with x := r.1, max_x := r.2.1, on_cells := r.2.2, count := 0 }
      else if c = '$' then
        parseRLEAux fuel rest { st with y := st.y + count, x := 0, count := 0 }
      else if c = '!' then st
      else
        parseRLEAux fuel rest { st with count := 0 }

/-- The `dy`/`dx` double loop of the neighbour count, with `(0,0)` skipped. -/
def neighborOffsets : List (Int × Int) :=
  [(-1, -1), (0, -1), (1, -1), (-1, 0), (1, 0), (-1, 1), (0, 1), (1, 1)]

def liveNeighbors (kp : KnownPattern) (x y gen : Int) : Nat :=
  (neighborOffsets.filter fun d => kp.get_state (x + d.1, y + d.2, gen - 1)).length

/-- `add_next_gen`: compute generation `gen` from generation `gen - 1` over
the bounds grown by one in each spatial direction, extending the bounds to
cover the new cells and setting the time limits to `(0, gen)`. -/
def add_next_gen (pattern : KnownPattern) (gen : Int) : KnownPattern :=
  let xlo := pattern.bounds.1.1
  let xhi := pattern.bounds.1.2
  let ylo := pattern.bounds.2.1.1
  let yhi := pattern.bounds.2.1.2
  let newCells : List Point :=
    (intRange (xlo - 1) (xhi + 1)).flatMap fun x =>
      (intRange (ylo - 1) (yhi + 1)).filterMap fun y =>
        let ln := liveNeighbors pattern x y gen
        if (pattern.get_state (x, y, gen - 1) ∧ ln = 2) ∨ ln = 3 then
          some ((x, y, gen) : Point)
        else none
  let newXY : Limits × Limits :=
    newCells.foldl
      (fun b p =>
        ((min b.1.1 p.1, max b.1.2 p.1), (min b.2.1 p.2.1, max b.2.2 p.2.1)))
      ((xlo, xhi), (ylo, yhi))
  { on_cells := pattern.on_cells ∪ newCells.toFinset
    bounds := (newXY.1, newXY.2, (0, gen))
    shift := pattern.shift }

/-- The `KnownPattern(rle, max_gen)` constructor: parse the RLE at time 0,
set the bounds from the parse, then add generations `1 … max_gen`. -/
def ofRLE (rle : List Char) (max_gen : Int) : KnownPattern :=
  let st := parseRLEAux rle.length rle ⟨0, 0, 0, 0, ∅⟩
  let base : KnownPattern :=
    { on_cells := st.on_cells
      bounds := ((0, st.max_x), (0, st.y), (0, max_gen))
      shift := (0, 0, 0) }
  (List.range max_gen.toNat).foldl (fun pat g => add_next_gen pat ((g : Int) + 1)) base

end KnownPattern

/-- Claim C9: parsing `"3o!"` with `max_gen = 4` yields the blinker:
generations 0, 2, 4 are the horizontal triple `{(0,0),(1,0),(2,0)}` at that
time coordinate, and generations 1, 3 the vertical triple
`{(1,-1),(1,0),(1,1)}`. -/
theorem c9_rle_blinker_round_trip :
    (KnownPattern.ofRLE "3o!".toList 4).on_cells.filter (fun p => p.2.2 = 0) =
        ({((0:Int),(0:Int),(0:Int)), (1,0,0), (2,0,0)} : Finset Point) ∧
      (KnownPattern.ofRLE "3o!".toList 4).on_cells.filter (fun p => p.2.2 = 1) =
        ({((1:Int),(-1:Int),(1:Int)), (1,0,1), (1,1,1)} : Finset Point) ∧
      (KnownPattern.ofRLE "3o!".toList 4).on_cells.filter (fun p => p.2.2 = 2) =
        ({((0:Int),(0:Int),(2:Int)), (1,0,2), (2,0,2)} : Finset Point) ∧
      (KnownPattern.ofRLE "3o!".toList 4).on_cells.filter (fun p => p.2.2 = 3) =
        ({((1:Int),(-1:Int),(3:Int)), (1,0,3), (1,1,3)} : Finset Point) ∧
      (KnownPattern.ofRLE "3o!".toList 4).on_cells.filter (fun p => p.2.2 = 4) =
        ({((0:Int),(0:Int),(4:Int)), (1,0,4), (2,0,4)} : Finset Point) ∧
      (KnownPattern.ofRLE "3o!".toList 4).on_cells.card = 15 := by
  decide

/-! ## solver.hpp : DIMACS output -/

/-- `make_dimacs_string`: header line, then for each clause every one of its
nine stored entries followed by a space, then the terminating `0` and a
newline. -/
def make_dimacs_string (clauses : ClauseList) (num_variables : Int) : String :=
  let header :=
    "p cnf " ++ toString num_variables ++ " " ++ toString clauses.length ++ "\n"
  clauses.foldl
    (fun acc clause =>
      (clause.foldl (fun a lit => a ++ toString lit ++ " ") acc) ++ "0\n")
    header

/-- The line emitted for one stored clause: every array entry (literals and
padding zeros alike) followed by a space, then `0` newline. -/
def dimacsLine (clause : Clause) : String :=
  clause.foldr (fun lit s => toString lit ++ " " ++ s) "0\n"

theorem foldl_lits_line (cl : List Int) :
    ∀ acc : String,
      cl.foldl (fun a lit => a ++ toString lit ++ " ") acc ++ "0\n" =
        acc ++ dimacsLine cl := by
  induction cl with
  | nil => intro acc; rfl
  | cons l cl ih =>
    intro acc
    rw [List.foldl_cons, ih]
    simp only [dimacsLine, List.foldr_cons, String.append_assoc]

theorem foldl_clauses_lines (clauses : ClauseList) :
    ∀ acc : String,
      clauses.foldl
          (fun acc clause =>
            (clause.foldl (fun a lit => a ++ toString lit ++ " ") acc) ++ "0\n")
          acc =
        acc ++ clauses.foldr (fun cl s => dimacsLine cl ++ s) "" := by
  induction clauses with
  | nil => intro acc; rw [List.foldl_nil, List.foldr_nil, String.append_empty]
  | cons cl clauses ih =>
    intro acc
    rw [List.foldl_cons, ih, foldl_lits_line, List.foldr_cons, String.append_assoc]

/-- Claim C6 (amended): `make_dimacs_string` emits the DIMACS header and then,
for each clause, a line holding *all nine* stored entries — the sorted
literals followed by the zero padding — each followed by a space, then the
terminating `0` and newline.  Padding zeros from short clauses therefore do
appear on the line before the terminator. -/
theorem c6_dimacs_line_structure (clauses : ClauseList) (num_variables : Int) :
    make_dimacs_string clauses num_variables =
      ("p cnf " ++ toString num_variables ++ " " ++ toString clauses.length ++ "\n") ++
        clauses.foldr (fun cl s => dimacsLine cl ++ s) "" := by
  rw [make_dimacs_string]
  exact foldl_clauses_lines clauses _

/-- Counterexample to C6 as stated: the single-literal clause built by
`ClauseBuilder` carries eight padding zeros, and its DIMACS line shows all of
them before the terminator instead of `"5 0"`. -/
theorem c6_counterexample :
    ClauseBuilder.get ⟨[5], false⟩ = [5, 0, 0, 0, 0, 0, 0, 0, 0] ∧
      make_dimacs_string [ClauseBuilder.get ⟨[5], false⟩] 10 =
        "p cnf 10 1\n5 0 0 0 0 0 0 0 0 0\n" := by
  have h1 : ClauseBuilder.get ⟨[5], false⟩ = [5, 0, 0, 0, 0, 0, 0, 0, 0] := by
    rw [ClauseBuilder.get]
    dsimp only
    have hms : ([5] : List Int).mergeSort (· ≤ ·) = [5] := by
      simp [List.mergeSort]
    rw [hms]
    rfl
  refine ⟨h1, ?_⟩
  rw [h1]
  rfl

/-! ## Claim C3 : merged live/dead classes -/

/-- A two-cell pattern whose cells are exchanged by the reflection
`x ↦ 1 - x`, with `(0,0,0)` known alive and `(1,0,0)` known dead: the group
orbit unites the two cells, and through them the LIVE and DEAD sentinels. -/
def c3Pattern : VariablePattern :=
  let base := VariablePattern.ofBounds ((0, 1), (0, 0), (0, 0))
  let r := base.add_cell_group ⟨[⟨-1, 0, 0, 1, 1, 0, 0⟩], IDENTITY⟩
  let vp2 := r.1.set_cell_group (0, 0, 0) r.2
  let vp3 := vp2.set_cell_group (1, 0, 0) r.2
  let vp4 := vp3.set_alive (0, 0, 0)
  vp4.set_dead (1, 0, 0)

/-- Claim C3 (refuting the spec): when unification merges a known-alive and a
known-dead cell into one class, `build` raises no error at all — it completes
normally, and both cells (one of them known dead) are assigned the LIVE
constant id 1. -/
theorem c3_merged_live_dead_class_builds_silently :
    c3Pattern.is_known (0, 0, 0) = true ∧ c3Pattern.get_state (0, 0, 0) = true ∧
      c3Pattern.is_known (1, 0, 0) = true ∧ c3Pattern.get_state (1, 0, 0) = false ∧
      c3Pattern.build.is_built = true ∧
      c3Pattern.build.get_cell_value (0, 0, 0) = 1 ∧
      c3Pattern.build.get_cell_value (1, 0, 0) = 1 ∧
      c3Pattern.build.num_variables = 0 := by
  decide

/-! ## search_problem.hpp : the composite masked search -/

/-- A sub-pattern is one of the two concrete `SubPattern` implementations. -/
inductive SubPatternObj where
  | knownp : KnownPattern → SubPatternObj
  | varp : VariablePattern → SubPatternObj

/-- Virtual `build()`: a no-op for `KnownPattern`. -/
def SubPatternObj.buildPat : SubPatternObj → SubPatternObj
  | knownp kp => knownp kp
  | varp vp => varp vp.build

def SubPatternObj.num_variables : SubPatternObj → Int
  | knownp _ => 0
  | varp vp => vp.num_variables

def SubPatternObj.get_cell_value : SubPatternObj → Point → Int
  | knownp kp, p => if kp.get_state p then 1 else 0
  | varp vp, p => vp.get_cell_value p

def SubPatternObj.follows_rules : SubPatternObj → Point → Bool
  | knownp _, _ => true
  | varp vp, p => vp.follows_rules p

structure SubPatternEntry where
  pattern : SubPatternObj
  mask : Point → Bool

instance : Inhabited SubPatternEntry :=
  ⟨⟨SubPatternObj.knownp ⟨∅, EMPTY_BOUNDS, (0, 0, 0)⟩, fun _ => false⟩⟩

structure SearchProblem where
  bounds : Bounds
  entries : List SubPatternEntry
  is_built : Bool
  total_variables : Int
  entry_base_var : List Int
  var_remap : List Int
  remapped_num_vars : Int
  raw_cell_values : List Int
  cell_follows_rules : List Bool
  remapped_cell_values : List Int

namespace SearchProblem

def init (bounds : Bounds) : SearchProblem :=
  ⟨bounds, [], false, 0, [], [], 0, [], [], []⟩

def ofSize (width height max_gen : Int) : SearchProblem :=
  init ((0, width - 1), (0, height - 1), (0, max_gen))

def add_entry (sp : SearchProblem) (pattern : SubPatternObj) (mask : Point → Bool) :
    SearchProblem :=
  { sp with entries := sp.entries ++ [⟨pattern, mask⟩], is_built := false }

def x_min (sp : SearchProblem) : Int := sp.bounds.1.1
def y_min (sp : SearchProblem) : Int := sp.bounds.2.1.1
def t_min (sp : SearchProblem) : Int := sp.bounds.2.2.1
def sz_x (sp : SearchProblem) : Int := sp.bounds.1.2 - sp.bounds.1.1 + 1
def sz_y (sp : SearchProblem) : Int := sp.bounds.2.1.2 - sp.bounds.2.1.1 + 1
def sz_t (sp : SearchProblem) : Int := sp.bounds.2.2.2 - sp.bounds.2.2.1 + 1

def total_cells (sp : SearchProblem) : Nat := (sp.sz_x * sp.sz_y * sp.sz_t).toNat

def flat_index (sp : SearchProblem) (x y t : Int) : Nat :=
  ((t - sp.t_min) * (sp.sz_y * sp.sz_x) + (y - sp.y_min) * sp.sz_x + (x - sp.x_min)).toNat

/-- The inverse of `flat_index`: the coordinates scanned for flat index `fi`. -/
def decodePoint (sp : SearchProblem) (fi : Nat) : Point :=
  (sp.x_min + (fi : Int) % sp.sz_x,
   sp.y_min + ((fi : Int) / sp.sz_x) % sp.sz_y,
   sp.t_min + (fi : Int) / (sp.sz_x * sp.sz_y))

def raw_value_at (sp : SearchProblem) (x y t : Int) : Int :=
  if x < sp.x_min ∨ x ≥ sp.x_min + sp.sz_x ∨ y < sp.y_min ∨ y ≥ sp.y_min + sp.sz_y ∨
      t < sp.t_min ∨ t ≥ sp.t_min + sp.sz_t then 0
  else sp.raw_cell_values.getD (sp.flat_index x y t) 0

def remapped_value_at (sp : SearchProblem) (x y t : Int) : Int :=
  if x < sp.x_min ∨ x ≥ sp.x_min + sp.sz_x ∨ y < sp.y_min ∨ y ≥ sp.y_min + sp.sz_y ∨
      t < sp.t_min ∨ t ≥ sp.t_min + sp.sz_t then 0
  else sp.remapped_cell_values.getD (sp.flat_index x y t) 0

def find_entry_idx (entries : List SubPatternEntry) (p : Point) : Option Nat :=
  match entries with
  | [] => none
  | e :: rest => if e.mask p then some 0 else (find_entry_idx rest p).map (· + 1)

/-- The coverage-validation pass of `build` over a list of flat cell
indices: the entry index for each, or the fixed error when a point is
accepted by no mask. -/
def computeEntryMapAux (sp : SearchProblem) : List Nat → Except String (List Nat)
  | [] => .ok []
  | fi :: rest =>
    match find_entry_idx sp.entries (sp.decodePoint fi) with
    | some i => do
      let r ← computeEntryMapAux sp rest
      return i :: r
    | none => .error "SearchProblem: not all cells are covered by masks"

def computeEntryMap (sp : SearchProblem) : Except String (List Nat) :=
  sp.computeEntryMapAux (List.range sp.total_cells)

/-- `rb < ra` on `int`, the comparison `UnionFind<int>::unite` uses. -/
def intLtB (a b : Int) : Bool := a < b

/-- The `dy` outer / `dx` inner neighbour scan of the signature loop. -/
def neighborOffsets8 : List (Int × Int) :=
  [(-1, -1), (0, -1), (1, -1), (-1, 0), (1, 0), (-1, 1), (0, 1), (1, 1)]

/-- One transition signature: the raw centre id and the eight raw neighbour
ids in ascending order. -/
def signatureAt (sp : SearchProblem) (x y t : Int) : Int × List Int :=
  (sp.raw_value_at x y t,
   (neighborOffsets8.map fun d => sp.raw_value_at (x + d.1) (y + d.2) t).insertionSort (· ≤ ·))

/-- The body of the `deduplicate_transitions` triple loop at one `(x, y, t)`:
record the first output of a signature, unite variable outputs with the
recorded one, and reject two differing known outputs. -/
def dedupStep (sp : SearchProblem)
    (st : List ((Int × List Int) × Int) × UnionFind Int) (pos : Point) :
    Except String (List ((Int × List Int) × Int) × UnionFind Int) :=
  let (sigMap, uf) := st
  let (x, y, t) := pos
  if !(sp.cell_follows_rules.getD (sp.flat_index x y (t + 1)) false) then .ok st
  else
    let output_val := sp.raw_value_at x y (t + 1)
    let sig := sp.signatureAt x y t
    match assocFind sigMap sig with
    | none => .ok (assocSet sigMap sig output_val, uf)
    | some recorded =>
      if output_val ≥ 2 then .ok (sigMap, uf.unite intLtB output_val recorded)
      else if recorded < 2 ∧ recorded ≠ output_val then
        .error ("SearchProblem: contradictory known outputs for same transition signature: position ("
          ++ toString x ++ ", " ++ toString y ++ ", " ++ toString t ++ "), center "
          ++ toString sig.1 ++ ", neighbors "
          ++ sig.2.foldl (fun s n => s ++ toString n ++ " ") ""
          ++ ", output " ++ toString output_val ++ " vs " ++ toString recorded)
      else if recorded ≥ 2 then .ok (sigMap, uf.unite intLtB recorded output_val)
      else .ok (sigMap, uf)

/-- The `t`-outer / `y` / `x`-inner scan order of the transition loops (`t`
runs to `tlims.second - 1`). -/
def transitionPositions (sp : SearchProblem) : List Point :=
  (intRange sp.bounds.2.2.1 (sp.bounds.2.2.2 - 1)).flatMap fun t =>
    (intRange sp.bounds.2.1.1 sp.bounds.2.1.2).flatMap fun y =>
      (intRange sp.bounds.1.1 sp.bounds.1.2).map fun x => ((x, y, t) : Point)

/-- The second half of `deduplicate_transitions`: map every raw variable to
its root's constant, or to a fresh contiguous id per distinct root. -/
def buildRemap (uf : UnionFind Int) (total_variables : Int) :
    List Int × Int :=
  let st := (List.range total_variables.toNat).foldl
    (fun (acc : List (Int × Int) × Int × List Int) i =>
      let (root_to_new, next_new, remap) := acc
      let root := uf.find (2 + (i : Int))
      if root < 2 then (root_to_new, next_new, remap ++ [root])
      else
        match assocFind root_to_new root with
        | some n => (root_to_new, next_new, remap ++ [n])
        | none => (assocSet root_to_new root next_new, next_new + 1, remap ++ [next_new]))
    ([], 2, [])
  (st.2.2, st.2.1 - 2)

/-- `deduplicate_transitions()`, returning `(var_remap, remapped_num_vars)`. -/
def deduplicate_transitions (sp : SearchProblem) : Except String (List Int × Int) := do
  let st ← sp.transitionPositions.foldlM (sp.dedupStep) ([], ⟨[]⟩)
  return buildRemap st.2 sp.total_variables

/-- The virtual per-entry `pattern->build()` call. -/
def buildEntry (e : SubPatternEntry) : SubPatternEntry :=
  { e with pattern := e.pattern.buildPat }

/-- The middle of `build()`: sub-patterns built, per-entry variable blocks
laid out, raw values and follows-rules precomputed.  The three
deduplication-result fields are still empty; `build` overwrites them all. -/
def buildMid (sp : SearchProblem) (entry_map : List Nat) : SearchProblem :=
  let entries' := sp.entries.map buildEntry
  let base_st := entries'.foldl
    (fun (acc : List Int × Int) e => (acc.1 ++ [acc.2], acc.2 + e.pattern.num_variables))
    ([], 2)
  { bounds := sp.bounds
    entries := entries'
    is_built := true
    total_variables := base_st.2 - 2
    entry_base_var := base_st.1
    var_remap := []
    remapped_num_vars := 0
    raw_cell_values := (List.range sp.total_cells).map fun fi =>
      let p := sp.decodePoint fi
      let ei := entry_map.getD fi 0
      let e := entries'.getD ei default
      let local_val := e.pattern.get_cell_value p
      if local_val < 2 then local_val
      else base_st.1.getD ei 0 + (local_val - 2)
    cell_follows_rules := (List.range sp.total_cells).map fun fi =>
      let p := sp.decodePoint fi
      let ei := entry_map.getD fi 0
      let e := entries'.getD ei default
      e.pattern.follows_rules p
    remapped_cell_values := [] }

/-- The tail of `build()`: store the deduplication result and precompute the
remapped values. -/
def finalize (mid : SearchProblem) (r : List Int × Int) : SearchProblem :=
  { mid with
      var_remap := r.1
      remapped_num_vars := r.2
      remapped_cell_values := mid.raw_cell_values.map fun raw =>
        if raw < 2 then raw else r.1.getD (raw - 2).toNat 0 }

/-- `build()`: validate mask coverage, build every sub-pattern, lay out the
per-entry variable blocks, precompute the raw value and follows-rules
arrays, deduplicate transitions and precompute the remapped values. -/
def build (sp : SearchProblem) : Except String SearchProblem := do
  let entry_map ← sp.computeEntryMap
  let r ← (sp.buildMid entry_map).deduplicate_transitions
  return finalize (sp.buildMid entry_map) r

def get_raw_cell_value (sp : SearchProblem) (p : Point) : Int :=
  sp.raw_value_at p.1 p.2.1 p.2.2

def get_cell_value (sp : SearchProblem) (p : Point) : Int :=
  sp.remapped_value_at p.1 p.2.1 p.2.2

def num_variables (sp : SearchProblem) : Int := sp.remapped_num_vars

/-- The ten remapped cell ids of the transition with output at
`(x, y, t + 1)`. -/
def ten_cells_at (sp : SearchProblem) (x y t : Int) : List Int :=
  ([-1, 0, 1].flatMap fun dy =>
    ([-1, 0, 1] : List Int).map fun dx => sp.remapped_value_at (x + dx) (y + dy) t) ++
  [sp.remapped_value_at x y (t + 1)]

def getClausesStep (sp : SearchProblem) (acc : ClauseList) (pos : Point) :
    Except String ClauseList :=
  if sp.cell_follows_rules.getD (sp.flat_index pos.1 pos.2.1 (pos.2.2 + 1)) false then do
    let cls ← transitionClauses (sp.ten_cells_at pos.1 pos.2.1 pos.2.2)
    return acc ++ cls
  else
    return acc

def get_clauses (sp : SearchProblem) : Except String ClauseList :=
  sp.transitionPositions.foldlM (sp.getClausesStep) []

end SearchProblem

/-! ## Claim C5 : the mask-coverage error -/

theorem computeEntryMapAux_error_of_mem (sp : SearchProblem) (l : List Nat) (fi : Nat)
    (hmem : fi ∈ l)
    (hnone : SearchProblem.find_entry_idx sp.entries (sp.decodePoint fi) = none) :
    sp.computeEntryMapAux l =
      .error "SearchProblem: not all cells are covered by masks" := by
  induction l with
  | nil => cases hmem
  | cons a l ih =>
    rw [SearchProblem.computeEntryMapAux]
    rcases List.mem_cons.mp hmem with rfl | hmem'
    · rw [hnone]
    · cases hfind : SearchProblem.find_entry_idx sp.entries (sp.decodePoint a) with
      | none => rfl
      | some i =>
        rw [ih hmem']
        rfl

theorem decode_flat_of_in_limits (sp : SearchProblem) (p : Point)
    (h : in_limits p sp.bounds = true) :
    sp.flat_index p.1 p.2.1 p.2.2 < sp.total_cells ∧
      sp.decodePoint (sp.flat_index p.1 p.2.1 p.2.2) = p := by
  obtain ⟨x, y, t⟩ := p
  unfold in_limits at h
  simp only [decide_eq_true_eq] at h
  obtain ⟨h1, h2, h3, h4, h5, h6⟩ := h
  unfold SearchProblem.flat_index SearchProblem.total_cells SearchProblem.decodePoint
  unfold SearchProblem.sz_x SearchProblem.sz_y SearchProblem.sz_t
    SearchProblem.x_min SearchProblem.y_min SearchProblem.t_min
  set X := sp.bounds.1.2 - sp.bounds.1.1 + 1 with hX
  set Y := sp.bounds.2.1.2 - sp.bounds.2.1.1 + 1 with hY
  set T := sp.bounds.2.2.2 - sp.bounds.2.2.1 + 1 with hT
  set lx := x - sp.bounds.1.1 with hlx
  set ly := y - sp.bounds.2.1.1 with hly
  set lt' := t - sp.bounds.2.2.1 with hlt'
  have hX0 : 0 < X := by omega
  have hY0 : 0 < Y := by omega
  have hT0 : 0 < T := by omega
  have hlx0 : 0 ≤ lx := by omega
  have hlxX : lx < X := by omega
  have hly0 : 0 ≤ ly := by omega
  have hlyY : ly < Y := by omega
  have hlt0 : 0 ≤ lt' := by omega
  have hltT : lt' < T := by omega
  have hfi : lt' * (Y * X) + ly * X + lx = lx + X * (ly + Y * lt') := by ring
  have hfi0 : 0 ≤ lt' * (Y * X) + ly * X + lx := by
    have := mul_nonneg hlt0 (mul_nonneg hY0.le hX0.le)
    have := mul_nonneg hly0 hX0.le
    omega
  have hinner : 0 ≤ ly + Y * lt' := by
    have := mul_nonneg hY0.le hlt0
    omega
  have hinnerlt : ly + Y * lt' < Y * T := by
    have h7 : Y * lt' ≤ Y * (T - 1) := mul_le_mul_of_nonneg_left (by omega) hY0.le
    have h8 : Y * (T - 1) = Y * T - Y := by ring
    omega
  have hfilt : lt' * (Y * X) + ly * X + lx < X * Y * T := by
    rw [hfi]
    have h7 : X * (ly + Y * lt') ≤ X * (Y * T - 1) :=
      mul_le_mul_of_nonneg_left (by omega) hX0.le
    have h8 : X * (Y * T - 1) = X * Y * T - X := by ring
    omega
  constructor
  · omega
  · have hcast : ((lt' * (Y * X) + ly * X + lx).toNat : Int) =
        lt' * (Y * X) + ly * X + lx := Int.toNat_of_nonneg hfi0
    rw [hcast, hfi]
    have hmod : (lx + X * (ly + Y * lt')) % X = lx := by
      rw [Int.add_mul_emod_self_left, Int.emod_eq_of_lt hlx0 hlxX]
    have hdiv : (lx + X * (ly + Y * lt')) / X = ly + Y * lt' := by
      rw [Int.add_mul_ediv_left _ _ hX0.ne', Int.ediv_eq_zero_of_lt hlx0 hlxX,
        Int.zero_add]
    have hmod2 : (ly + Y * lt') % Y = ly := by
      rw [Int.add_mul_emod_self_left, Int.emod_eq_of_lt hly0 hlyY]
    have hdiv3 : (lx + X * (ly + Y * lt')) / (X * Y) = lt' := by
      have hsplit : lx + X * (ly + Y * lt') = (lx + X * ly) + (X * Y) * lt' := by ring
      rw [hsplit, Int.add_mul_ediv_left _ _ (mul_pos hX0 hY0).ne']
      have hsmall : lx + X * ly < X * Y := by
        have h7 : X * ly ≤ X * (Y - 1) := mul_le_mul_of_nonneg_left (by omega) hX0.le
        have h8 : X * (Y - 1) = X * Y - X := by ring
        omega
      have hsmall0 : 0 ≤ lx + X * ly := by
        have := mul_nonneg hX0.le hly0
        omega
      rw [Int.ediv_eq_zero_of_lt hsmall0 hsmall, Int.zero_add]
    rw [hmod, hdiv, hmod2, hdiv3]
    show (sp.bounds.1.1 + lx, sp.bounds.2.1.1 + ly, sp.bounds.2.2.1 + lt') = (x, y, t)
    rw [hlx, hly, hlt']
    show (sp.bounds.1.1 + (x - sp.bounds.1.1), sp.bounds.2.1.1 + (y - sp.bounds.2.1.1),
      sp.bounds.2.2.1 + (t - sp.bounds.2.2.1)) = (x, y, t)
    congr 1
    · omega
    · congr 1 <;> omega

/-- Claim C5 (amended): whenever some in-bounds point is accepted by no
entry's mask, `build` fails with the fixed error message
`"SearchProblem: not all cells are covered by masks"` — which names no
point. -/
theorem c5_uncovered_point_gives_fixed_error (sp : SearchProblem) (p : Point)
    (hin : in_limits p sp.bounds = true)
    (hunc : SearchProblem.find_entry_idx sp.entries p = none) :
    sp.build = .error "SearchProblem: not all cells are covered by masks" := by
  obtain ⟨hlt, hdec⟩ := decode_flat_of_in_limits sp p hin
  have herr : sp.computeEntryMap =
      .error "SearchProblem: not all cells are covered by masks" := by
    refine computeEntryMapAux_error_of_mem sp _ _ (List.mem_range.mpr hlt) ?_
    rw [hdec]
    exact hunc
  rw [SearchProblem.build, herr]
  rfl

/-- Witness for C5: the empty entry list covers nothing, so the one-cell
problem fails with the fixed message. -/
theorem c5_witness :
    in_limits ((0, 0, 0) : Point) (SearchProblem.init ((0, 0), (0, 0), (0, 0))).bounds = true ∧
      SearchProblem.find_entry_idx (SearchProblem.init ((0, 0), (0, 0), (0, 0))).entries
        ((0, 0, 0) : Point) = none ∧
      (SearchProblem.init ((0, 0), (0, 0), (0, 0))).build =
        .error "SearchProblem: not all cells are covered by masks" :=
  ⟨by decide, by decide,
   c5_uncovered_point_gives_fixed_error _ (0, 0, 0) (by decide) (by decide)⟩

/-- Counterexample to C5 as stated: two problems whose unique uncovered
points differ — `(0,0,0)` in the first, `(1,0,0)` in the second — produce
*identical* error messages, so the message cannot name the uncovered
point. -/
theorem c5_counterexample :
    ((SearchProblem.init ((0, 1), (0, 0), (0, 0))).add_entry
        (SubPatternObj.knownp ⟨∅, EMPTY_BOUNDS, (0, 0, 0)⟩)
        (fun p => decide (p ≠ (0, 0, 0)))).build =
      .error "SearchProblem: not all cells are covered by masks" ∧
    ((SearchProblem.init ((0, 1), (0, 0), (0, 0))).add_entry
        (SubPatternObj.knownp ⟨∅, EMPTY_BOUNDS, (0, 0, 0)⟩)
        (fun p => decide (p ≠ (1, 0, 0)))).build =
      .error "SearchProblem: not all cells are covered by masks" := by
  constructor
  · rfl
  · rfl

/-! ## Claim C2 : deduplication by transition signature -/

/-- An 11-cell row over two generations.  At `t = 0` only `(5,0,0)` is alive.
At `t = 1` the cells at `x ∈ {0,1,2,3,7,9,10}` are known alive, `x ∈ {4,5}`
known dead, and `(6,0,1)`, `(8,0,1)` are free variables sharing one symmetry
group under the translation `x ↦ x + 2`, hence one raw variable. -/
def c2Pattern : VariablePattern :=
  let base := VariablePattern.ofBounds ((0, 10), (0, 0), (0, 1))
  let r := base.add_cell_group ⟨[⟨1, 0, 0, 1, 2, 0, 0⟩], IDENTITY⟩
  let v := ([0, 1, 2, 3, 4, 6, 7, 8, 9, 10] : List Int).foldl
    (fun vp x => vp.set_dead (x, 0, 0)) r.1
  let v := v.set_alive (5, 0, 0)
  let v := ([0, 1, 2, 3, 7, 9, 10] : List Int).foldl
    (fun vp x => vp.set_alive (x, 0, 1)) v
  let v := v.set_dead (4, 0, 1)
  let v := v.set_dead (5, 0, 1)
  let v := v.set_cell_group (6, 0, 1) r.2
  v.set_cell_group (8, 0, 1) r.2

def c2Problem : SearchProblem :=
  (SearchProblem.ofSize 11 1 1).add_entry (SubPatternObj.varp c2Pattern) fun _ => true

/-- The successfully built problem of the C2 counterexample. -/
def c2Built : SearchProblem :=
  match c2Problem.build with
  | .ok sp' => sp'
  | .error _ => SearchProblem.init EMPTY_BOUNDS

set_option maxRecDepth 100000 in
/-- Counterexample to C2 as stated: `build` succeeds, the transitions with
outputs `(7,0,1)` and `(8,0,1)` have equal raw signatures and both outputs
follow the rules, yet `get_cell_value` returns 1 at the first output and 0
at the second.  (The transition chain unites the one raw variable with both
constants: its signature at `x = 6` shares a recorded known-dead output and
at `x = 8` a recorded known-alive one, so the class `{0, 1, var}` gets root
0 and the variable remaps to 0 while the known cell keeps 1.) -/
theorem c2_counterexample :
    (∃ sp', c2Problem.build = .ok sp') ∧
      c2Built.signatureAt 7 0 0 = c2Built.signatureAt 8 0 0 ∧
      c2Built.cell_follows_rules.getD (c2Built.flat_index 7 0 1) false = true ∧
      c2Built.cell_follows_rules.getD (c2Built.flat_index 8 0 1) false = true ∧
      c2Built.get_raw_cell_value (7, 0, 1) = 1 ∧
      c2Built.get_raw_cell_value (8, 0, 1) = 2 ∧
      c2Built.get_cell_value (7, 0, 1) = 1 ∧
      c2Built.get_cell_value (8, 0, 1) = 0 := by
  refine ⟨⟨c2Built, rfl⟩, ?_⟩
  decide

/-! ## Claim C8 : idempotence of build -/

theorem except_error_bind {α β : Type} (e : String)
    (f : α → Except String β) : (Except.error e : Except String α) >>= f = .error e := rfl

theorem buildEntry_idem (e : SubPatternEntry) :
    SearchProblem.buildEntry (SearchProblem.buildEntry e) = SearchProblem.buildEntry e := by
  unfold SearchProblem.buildEntry
  cases h : e.pattern with
  | knownp kp => rfl
  | varp vp => rfl

theorem find_entry_idx_map_buildEntry (entries : List SubPatternEntry) (p : Point) :
    SearchProblem.find_entry_idx (entries.map SearchProblem.buildEntry) p =
      SearchProblem.find_entry_idx entries p := by
  induction entries with
  | nil => rfl
  | cons e rest ih =>
    rw [List.map_cons, SearchProblem.find_entry_idx, SearchProblem.find_entry_idx]
    rw [ih]
    rfl

theorem computeEntryMapAux_ext (sp1 sp2 : SearchProblem)
    (hb : sp2.bounds = sp1.bounds)
    (he : ∀ p, SearchProblem.find_entry_idx sp2.entries p =
      SearchProblem.find_entry_idx sp1.entries p) :
    ∀ l, sp2.computeEntryMapAux l = sp1.computeEntryMapAux l := by
  intro l
  induction l with
  | nil => rfl
  | cons fi rest ih =>
    rw [SearchProblem.computeEntryMapAux, SearchProblem.computeEntryMapAux]
    have hdec : sp2.decodePoint fi = sp1.decodePoint fi := by
      unfold SearchProblem.decodePoint SearchProblem.x_min SearchProblem.y_min
        SearchProblem.t_min SearchProblem.sz_x SearchProblem.sz_y
      rw [hb]
    rw [hdec, he, ih]

theorem computeEntryMap_ext (sp1 sp2 : SearchProblem)
    (hb : sp2.bounds = sp1.bounds)
    (he : ∀ p, SearchProblem.find_entry_idx sp2.entries p =
      SearchProblem.find_entry_idx sp1.entries p) :
    sp2.computeEntryMap = sp1.computeEntryMap := by
  rw [SearchProblem.computeEntryMap, SearchProblem.computeEntryMap]
  have ht : sp2.total_cells = sp1.total_cells := by
    unfold SearchProblem.total_cells SearchProblem.sz_x SearchProblem.sz_y
      SearchProblem.sz_t
    rw [hb]
  rw [ht, computeEntryMapAux_ext sp1 sp2 hb he]

theorem buildMid_ext (sp1 sp2 : SearchProblem) (em : List Nat)
    (hb : sp2.bounds = sp1.bounds)
    (he : sp2.entries.map SearchProblem.buildEntry =
      sp1.entries.map SearchProblem.buildEntry) :
    sp2.buildMid em = sp1.buildMid em := by
  obtain ⟨b1, e1, i1, t1, v1, r1, n1, c1, f1, m1⟩ := sp1
  obtain ⟨b2, e2, i2, t2, v2, r2, n2, c2, f2, m2⟩ := sp2
  dsimp only at hb he
  subst hb
  unfold SearchProblem.buildMid
  dsimp only
  rw [he]
  rfl

/-- Claim C8: `build` is idempotent.  A second `build()` on an
already-built `VariablePattern` returns the identical pattern, and a second
`build()` on the problem returned by a successful `SearchProblem::build`
returns that same problem — hence every `get_cell_value`, `num_variables`
and emitted clause list coincide with the first build's. -/
theorem c8_build_idempotent :
    (∀ vp : VariablePattern, vp.build.build = vp.build) ∧
      ∀ sp sp' : SearchProblem, sp.build = .ok sp' → sp'.build = .ok sp' := by
  refine ⟨fun vp => rfl, ?_⟩
  intro sp sp' h
  rw [SearchProblem.build] at h
  cases hem : sp.computeEntryMap with
  | error e =>
    rw [hem, except_error_bind] at h
    exact absurd h (by simp)
  | ok em =>
    rw [hem, except_ok_bind] at h
    cases hded : (sp.buildMid em).deduplicate_transitions with
    | error e =>
      rw [hded, except_error_bind] at h
      exact absurd h (by simp)
    | ok r =>
      rw [hded, except_ok_bind] at h
      have hsp' : sp' = SearchProblem.finalize (sp.buildMid em) r :=
        (Except.ok.inj h).symm
      subst hsp'
      rw [SearchProblem.build]
      have hb : (SearchProblem.finalize (sp.buildMid em) r).bounds = sp.bounds := rfl
      have hents : (SearchProblem.finalize (sp.buildMid em) r).entries.map
          SearchProblem.buildEntry = sp.entries.map SearchProblem.buildEntry := by
        show (sp.entries.map SearchProblem.buildEntry).map SearchProblem.buildEntry =
          sp.entries.map SearchProblem.buildEntry
        rw [List.map_map]
        exact List.map_congr_left fun e _ => buildEntry_idem e
      have hfind : ∀ p, SearchProblem.find_entry_idx
          (SearchProblem.finalize (sp.buildMid em) r).entries p =
          SearchProblem.find_entry_idx sp.entries p := by
        intro p
        show SearchProblem.find_entry_idx (sp.entries.map SearchProblem.buildEntry) p =
          SearchProblem.find_entry_idx sp.entries p
        exact find_entry_idx_map_buildEntry sp.entries p
      have hcem : (SearchProblem.finalize (sp.buildMid em) r).computeEntryMap =
          sp.computeEntryMap := computeEntryMap_ext sp _ hb hfind
      rw [hcem, hem, except_ok_bind]
      have hmid : (SearchProblem.finalize (sp.buildMid em) r).buildMid em =
          sp.buildMid em := buildMid_ext sp _ em hb hents
      rw [hmid, hded, except_ok_bind]
      rfl

def c8Problem : SearchProblem :=
  (SearchProblem.ofSize 1 1 0).add_entry
    (SubPatternObj.knownp ⟨∅, EMPTY_BOUNDS, (0, 0, 0)⟩) fun _ => true

def c8Built : SearchProblem :=
  match c8Problem.build with
  | .ok sp' => sp'
  | .error _ => SearchProblem.init EMPTY_BOUNDS

/-- Witness for C8: a concrete one-cell problem builds successfully, and a
second build returns the identical problem. -/
theorem c8_witness : c8Problem.build = .ok c8Built ∧ c8Built.build = .ok c8Built :=
  ⟨rfl, c8_build_idempotent.2 c8Problem c8Built rfl⟩
